import Mathlib

/-!
# Ledger engine of `pkgs/blockchain/blockchain.go`

A shallow embedding of the node type `Blockchain` and of its operations
(`NewBlockchain`, `createBlock`, `AddTransaction`, `Mining`,
`CalculateTotalAmount`, `ValidChain`, `ResolveConflicts`, `validProof`,
`proofOfWork`), followed by theorems about them.

What the file imports from other packages is taken as a parameter:

* the `float32` amounts and their operators `+=`, `-=`, `<` and the literals
  `0.0`, `1.0` are a type `V` with `Zero`, `One`, `Add`, `Sub`, `LT`;
* `block.Block.Hash` (SHA-256 of the block's JSON) and the ECDSA check are the
  fields of `Crypto`.

Pointers are replaced by the values they point to: the pool is replaced by a
fresh slice when a block is sealed, so a sealed block never shares its
transactions with the pool.
-/

set_option linter.unusedSectionVars false

namespace Ledger

/-! ## Constants -/

/-- Number of leading hexadecimal zeros a proof of work needs. -/
def MINING_DIFFICULTY : Nat := 3

/-- Sender of the reward transaction. -/
def cMINING_SENDER : String := "THE BLOCK CHAIN"

/-- Reward of one sealed block, the literal `1.0`. -/
def cMINING_REWARD {V : Type} [One V] : V := 1

/-! ## Data model -/

/-- Record of `transaction.Transaction`, read through `GetSender`,
`GetRecipient` and `GetValue`. -/
structure Transaction (V : Type) where
  sender : String
  recipient : String
  value : V
deriving DecidableEq

/-- The array type `[32]byte`. -/
abbrev Digest : Type := Mathlib.Vector (Fin 256) 32

/-- Record of `block.Block`, read through `Nonce`, `PreviousHash` and
`Transactions`; `timestamp` is what `NewBlock` stamps and `AssembleBlock`
receives. -/
structure Block (V : Type) where
  timestamp : Int
  nonce : Int
  previousHash : Digest
  transactions : List (Transaction V)
deriving DecidableEq

/-- Fields of `Blockchain` that the ledger operations read or write (the
mutexes and timers are left out). -/
structure Blockchain (V : Type) where
  transactionPool : List (Transaction V)
  chain : List (Block V)
  blockChainAddress : String
  port : Nat
  neighbours : List String
deriving DecidableEq

/-- What `http.Get` hands back when it hands back a response: the status code
and the chain that decoding the body leaves in `bcResp` (empty when the body
holds none). -/
structure Response (V : Type) where
  statusCode : Int
  chain : List (Block V)
deriving DecidableEq

/-- Functions of other packages: `Hash` is `block.Block.Hash`, `txDigest` is
`sha256.Sum256` of the transaction's JSON, `ecdsaVerify` is `ecdsa.Verify` on a
key, a digest and the two numbers of a signature. -/
structure Crypto (PK Sig V : Type) where
  Hash : Block V → Digest
  txDigest : Transaction V → Digest
  ecdsaVerify : PK → Digest → Sig → Bool

section Operations

variable {PK Sig V : Type}

/-- Constructor `transaction.NewTransaction(nil, nil, sender, recipient, value)`. -/
def NewTransaction (sender recipient : String) (value : V) : Transaction V :=
  { sender := sender, recipient := recipient, value := value }

/-- Constructor `block.AssembleBlock(timestamp, nonce, previousHash, transactions)`. -/
def AssembleBlock (timestamp nonce : Int) (previousHash : Digest)
    (transactions : List (Transaction V)) : Block V :=
  { timestamp := timestamp, nonce := nonce, previousHash := previousHash,
    transactions := transactions }

/-- Constructor `block.NewBlock(nonce, previousHash, transactions)`, with the
clock reading `now` it stamps on the block. -/
def NewBlock (now nonce : Int) (previousHash : Digest)
    (transactions : List (Transaction V)) : Block V :=
  AssembleBlock now nonce previousHash transactions

/-- The zero value `block.Block{}`. -/
def emptyBlock : Block V :=
  { timestamp := 0, nonce := 0, previousHash := Mathlib.Vector.replicate 32 0,
    transactions := [] }

/-- The digest of 32 zero bytes. -/
def zeroDigest : Digest := Mathlib.Vector.replicate 32 0

/-- One lowercase hexadecimal digit. -/
def hexDigit (n : Nat) : Char :=
  if n < 10 then Char.ofNat (48 + n) else Char.ofNat (87 + n)

/-- Rendering of a digest by `fmt.Sprintf("%x", ...)`: two digits per byte. -/
def hexString (d : Digest) : List Char :=
  d.toList.flatMap (fun b => [hexDigit (b.val / 16), hexDigit (b.val % 16)])

/-- Method `validProof`: the hexadecimal hash of the block assembled with
timestamp `0` starts with `difficulty` zeros. The slice
`guessHashStr[:difficulty]` is in range for `difficulty ≤ 64`; every call in
the source passes `MINING_DIFFICULTY`. -/
def validProof (E : Crypto PK Sig V) (nonce : Int) (previousHash : Digest)
    (transactions : List (Transaction V)) (difficulty : Nat) : Bool :=
  let zeros := List.replicate difficulty '0'
  let guess : Block V := AssembleBlock 0 nonce previousHash transactions
  let guessHashStr := hexString (E.Hash guess)
  guessHashStr.take difficulty == zeros

/-- Method `lastBlock`. -/
def lastBlock (bc : Blockchain V) : Block V :=
  match bc.chain.getLast? with
  | none => emptyBlock
  | some b => b

/-- Method `copyTransactionPool`. -/
def copyTransactionPool (bc : Blockchain V) : List (Transaction V) :=
  bc.transactionPool.map (fun t => NewTransaction t.sender t.recipient t.value)

/-- Increment of a Go `int` (64 bits, two's complement). -/
def incInt (n : Int) : Int := (n + 1 + 2 ^ 63) % 2 ^ 64 - 2 ^ 63

/-- Loop of `proofOfWork`, cut after `fuel` tests of `validProof`. -/
def proofOfWorkLoop (E : Crypto PK Sig V) (previousHash : Digest)
    (transactions : List (Transaction V)) : Nat → Int → Option Int
  | 0, _ => none
  | fuel + 1, nonce =>
    if validProof E nonce previousHash transactions MINING_DIFFICULTY then some nonce
    else proofOfWorkLoop E previousHash transactions fuel (incInt nonce)

/-- Method `proofOfWork`; `none` when `fuel` tests were not enough. -/
def proofOfWork (E : Crypto PK Sig V) (bc : Blockchain V) (fuel : Nat) : Option Int :=
  let transactions := copyTransactionPool bc
  let previousHash := E.Hash (lastBlock bc)
  proofOfWorkLoop E previousHash transactions fuel 0

/-- Method `createBlock` (the requests sent to the neighbours do not change
this node). -/
def createBlock (E : Crypto PK Sig V) (bc : Blockchain V) (now : Int) (fuel : Nat) :
    Option (Blockchain V × Block V) :=
  match proofOfWork E bc fuel with
  | none => none
  | some nonce =>
    let previousHash := E.Hash (lastBlock bc)
    let rBlock := NewBlock now nonce previousHash bc.transactionPool
    some ({ bc with chain := bc.chain ++ [rBlock], transactionPool := [] }, rBlock)

/-- Function `NewBlockchain`. -/
def NewBlockchain (E : Crypto PK Sig V) (pBlockChainAddress : String) (pPort : Nat)
    (now : Int) (fuel : Nat) : Option (Blockchain V) :=
  let bc : Blockchain V :=
    { transactionPool := [], chain := [], blockChainAddress := pBlockChainAddress,
      port := pPort, neighbours := [] }
  (createBlock E bc now fuel).map Prod.fst

/-- Method `ClearTransactionPool`. -/
def ClearTransactionPool (bc : Blockchain V) : Blockchain V :=
  { bc with transactionPool := bc.transactionPool.take 0 }

/-- Method `SetNeighbors`, with the list `utils.FindNeighbors` found. -/
def SetNeighbors (bc : Blockchain V) (found : List String) : Blockchain V :=
  { bc with neighbours := found }

/-- Method `verifyTransactionSignature`. -/
def verifyTransactionSignature (E : Crypto PK Sig V) (senderPublicKey : PK) (s : Sig)
    (t : Transaction V) : Bool :=
  E.ecdsaVerify senderPublicKey (E.txDigest t) s

variable [Zero V] [One V] [Add V] [Sub V] [LT V] [DecidableRel (fun a b : V => a < b)]

/-- Method `CalculateTotalAmount`. -/
def CalculateTotalAmount (bc : Blockchain V) (blockchainaddress : String) : V :=
  bc.chain.foldl (fun totalAmount b =>
    b.transactions.foldl (fun totalAmount t =>
      let totalAmount :=
        if t.recipient = blockchainaddress then totalAmount + t.value else totalAmount
      if t.sender = blockchainaddress then totalAmount - t.value else totalAmount)
      totalAmount) 0

/-- Method `AddTransaction`; a key or signature that is `nil` is `none`, and
the result is `none` when the call dereferences one. -/
def AddTransaction (E : Crypto PK Sig V) (bc : Blockchain V) (sender recipient : String)
    (value : V) (senderPublickey : Option PK) (signature : Option Sig) :
    Option (Blockchain V × Bool) :=
  let t := NewTransaction sender recipient value
  if sender = cMINING_SENDER then
    some ({ bc with transactionPool := bc.transactionPool ++ [t] }, true)
  else
    match senderPublickey, signature with
    | some pk, some s =>
      if verifyTransactionSignature E pk s t then
        if CalculateTotalAmount bc sender < value then some (bc, false)
        else some ({ bc with transactionPool := bc.transactionPool ++ [t] }, true)
      else some (bc, false)
    | _, _ => none

/-- Method `Mining` (the requests sent to the neighbours do not change this
node). -/
def Mining (E : Crypto PK Sig V) (bc : Blockchain V) (now : Int) (fuel : Nat) :
    Option (Blockchain V × Bool) :=
  match AddTransaction E bc cMINING_SENDER bc.blockChainAddress cMINING_REWARD none none with
  | none => none
  | some (bc1, _) =>
    match createBlock E bc1 now fuel with
    | none => none
    | some (bc2, _) => some (bc2, true)

/-- Loop of `ValidChain` from index `currentIndex` on, `preBlock` being the
block before it. -/
def validChainLoop (E : Crypto PK Sig V) (preBlock : Block V) : List (Block V) → Bool
  | [] => true
  | b :: rest =>
    if b.previousHash ≠ E.Hash preBlock then false
    else if !validProof E b.nonce b.previousHash b.transactions MINING_DIFFICULTY then false
    else validChainLoop E b rest

/-- Method `ValidChain`; `none` is the index panic of `chain[0]` on an empty chain. -/
def ValidChain (E : Crypto PK Sig V) (chain : List (Block V)) : Option Bool :=
  match chain with
  | [] => none
  | preBlock :: rest => some (validChainLoop E preBlock rest)

/-- One turn of the loop of `ResolveConflicts` on the pair
`(longestChain, maxLength)`; `resp` is `none` when `http.Get` failed, and the
result is `none` when the turn panics. -/
def resolveStep (E : Crypto PK Sig V) (acc : Option (List (Block V)) × Nat)
    (resp : Option (Response V)) : Option (Option (List (Block V)) × Nat) :=
  match resp with
  | none => none
  | some r =>
    if r.statusCode = 200 then
      let chain := r.chain
      if chain.length > acc.2 then
        match ValidChain E chain with
        | none => none
        | some true => some (some chain, chain.length)
        | some false => some acc
      else some acc
    else some acc

/-- Loop of `ResolveConflicts` over the neighbours, `httpGet n` being the
answer to `GET http://n/chain`. -/
def resolveLoop (E : Crypto PK Sig V) (httpGet : String → Option (Response V)) :
    List String → Option (List (Block V)) × Nat → Option (Option (List (Block V)) × Nat)
  | [], acc => some acc
  | n :: rest, acc =>
    match resolveStep E acc (httpGet n) with
    | none => none
    | some acc1 => resolveLoop E httpGet rest acc1

/-- Method `ResolveConflicts`. -/
def ResolveConflicts (E : Crypto PK Sig V) (bc : Blockchain V)
    (httpGet : String → Option (Response V)) : Option (Blockchain V × Bool) :=
  match resolveLoop E httpGet bc.neighbours (none, bc.chain.length) with
  | none => none
  | some (some longestChain, _) => some ({ bc with chain := longestChain }, true)
  | some (none, _) => some (bc, false)

/-- Pair `(longestChain, maxLength)` in the loop of `ResolveConflicts` started
with `maxLength = localLength`: `maxLength` is `localLength` until a chain is
held, and a chain that is held is accepted by `ValidChain`, has length
`maxLength` and is longer than `localLength`. -/
def ResolveInv (E : Crypto PK Sig V) (localLength : Nat)
    (acc : Option (List (Block V)) × Nat) : Prop :=
  match acc.1 with
  | none => acc.2 = localLength
  | some chain =>
    ValidChain E chain = some true ∧ chain.length = acc.2 ∧ localLength < chain.length

/-- An answer qualifies against `maxLength`: it has status 200 and its chain is
strictly longer than `maxLength` and accepted by `ValidChain`. -/
def Qualifies (E : Crypto PK Sig V) (maxLength : Nat) (r : Response V) : Prop :=
  r.statusCode = 200 ∧ maxLength < r.chain.length ∧ ValidChain E r.chain = some true

/-- Chain on which one turn of the loop of `ResolveConflicts` invokes
`ValidChain`, if it does: the chain of an answer with status 200 that is longer
than `maxLength`. -/
def validChainArg (acc : Option (List (Block V)) × Nat) (resp : Option (Response V)) :
    Option (List (Block V)) :=
  match resp with
  | none => none
  | some r => if r.statusCode = 200 ∧ r.chain.length > acc.2 then some r.chain else none

/-- Chains on which the loop of `ResolveConflicts` invokes `ValidChain`, in
order, up to the end of the loop or to the turn that panics. -/
def validChainArgs (E : Crypto PK Sig V) (httpGet : String → Option (Response V)) :
    List String → Option (List (Block V)) × Nat → List (List (Block V))
  | [], _ => []
  | n :: rest, acc =>
    (validChainArg acc (httpGet n)).toList ++
      (match resolveStep E acc (httpGet n) with
       | none => []
       | some acc1 => validChainArgs E httpGet rest acc1)

/-! ## Runs of a node -/

/-- One call on the node, with what the outside world contributes to it: the
clock reading and the number of nonce tests allowed, the arguments of
`AddTransaction`, the answers of the neighbours, the neighbours found. -/
inductive Op (PK Sig V : Type) where
  | mining (now : Int) (fuel : Nat)
  | addTransaction (sender recipient : String) (value : V)
      (senderPublickey : Option PK) (signature : Option Sig)
  | clearTransactionPool
  | resolveConflicts (httpGet : String → Option (Response V))
  | setNeighbors (found : List String)

/-- State after one call; `none` when the call does not return. -/
def Op.apply (E : Crypto PK Sig V) : Op PK Sig V → Blockchain V → Option (Blockchain V)
  | .mining now fuel, bc => (Mining E bc now fuel).map Prod.fst
  | .addTransaction sender recipient value pk s, bc =>
    (AddTransaction E bc sender recipient value pk s).map Prod.fst
  | .clearTransactionPool, bc => some (ClearTransactionPool bc)
  | .resolveConflicts httpGet, bc => (ResolveConflicts E bc httpGet).map Prod.fst
  | .setNeighbors found, bc => some (SetNeighbors bc found)

/-- State after a sequence of calls, each of which returns. -/
def run (E : Crypto PK Sig V) : List (Op PK Sig V) → Blockchain V → Option (Blockchain V)
  | [], bc => some bc
  | op :: ops, bc =>
    match op.apply E bc with
    | none => none
    | some bc1 => run E ops bc1

/-- States a node can be in: built by `NewBlockchain`, then any calls. -/
def Reachable (E : Crypto PK Sig V) (bc : Blockchain V) : Prop :=
  ∃ (addr : String) (port : Nat) (now : Int) (fuel : Nat) (ops : List (Op PK Sig V))
    (bc0 : Blockchain V),
    NewBlockchain E addr port now fuel = some bc0 ∧ run E ops bc0 = some bc

/-- Addresses that occur as sender or recipient of a transaction of a block of
the chain, each listed once (the "addresses ever seen" of balance
conservation). -/
def seenAddresses (bc : Blockchain V) : List String :=
  (bc.chain.flatMap (fun b =>
    b.transactions.flatMap (fun t => [t.sender, t.recipient]))).dedup

/-- Sum of `CalculateTotalAmount` over a list of addresses. -/
def sumOfBalances (bc : Blockchain V) (addresses : List String) : V :=
  (addresses.map (CalculateTotalAmount bc)).sum

/-- Calls of balance conservation: `Mining`, and `AddTransaction` with a sender
and a recipient other than the coin-base sentinel. -/
def Op.isTransfer : Op PK Sig V → Bool
  | .mining _ _ => true
  | .addTransaction sender recipient _ _ _ =>
    sender != cMINING_SENDER && recipient != cMINING_SENDER
  | _ => false

/-- Transactions of the blocks of the chain, in chain order. -/
def allTransactions (bc : Blockchain V) : List (Transaction V) :=
  bc.chain.flatMap (fun b => b.transactions)

/-- What one transaction adds to the balances of the addresses other than the
coin-base sentinel, taken together. -/
def userDelta (t : Transaction V) : V :=
  (if t.recipient ≠ cMINING_SENDER then t.value else 0) -
    (if t.sender ≠ cMINING_SENDER then t.value else 0)

/-- Adjustments one transaction makes to the balance of `addr`, in the words of
the specification: `+value` (tagged `true`) when the recipient is `addr`, then
`-value` (tagged `false`) when the sender is `addr`. -/
def adjustments (addr : String) (t : Transaction V) : List (Bool × V) :=
  (if t.recipient = addr then [(true, t.value)] else []) ++
    (if t.sender = addr then [(false, t.value)] else [])

/-- Sum of a sequence of adjustments, accumulated from `0` in their order. -/
def signedSum (adjs : List (Bool × V)) : V :=
  adjs.foldl (fun total a => if a.1 then total + a.2 else total - a.2) 0

/-- What one transaction adds to the balance of `addr`. -/
def txDelta (addr : String) (t : Transaction V) : V :=
  (if t.recipient = addr then t.value else 0) - (if t.sender = addr then t.value else 0)

end Operations

section SignedAmounts

variable {PK Sig V : Type} [Zero V] [LE V]

/-- Calls of a run in which no negative amount is submitted: `Mining`, and
`AddTransaction` with a value that is not negative. -/
def Op.submitsNonneg : Op PK Sig V → Prop
  | .mining _ _ => True
  | .addTransaction _ _ value _ _ => 0 ≤ value
  | _ => False

/-- No transaction of the pool or of a block of the chain has a negative value. -/
def NonnegValues (bc : Blockchain V) : Prop :=
  (∀ t ∈ bc.transactionPool, 0 ≤ t.value) ∧
  ∀ b ∈ bc.chain, ∀ t ∈ b.transactions, 0 ≤ t.value

end SignedAmounts

section ExactAmounts

variable {V : Type} [AddCommGroup V] [One V]

/-- Bookkeeping of balance conservation in exact arithmetic: the transactions of
the chain pay the users one reward per block after the first, the pending
transactions pay them nothing, and the node is not the coin-base sentinel. -/
def ConservationInv (bc : Blockchain V) : Prop :=
  ((allTransactions bc).map userDelta).sum = (bc.chain.length - 1) • (cMINING_REWARD : V) ∧
  (∀ t ∈ bc.transactionPool, userDelta t = 0) ∧
  bc.chain ≠ [] ∧ bc.blockChainAddress ≠ cMINING_SENDER

end ExactAmounts

/-! ## A small instance to evaluate the definitions on -/

/-- Digest whose 32 bytes are all `n % 256`. -/
def constDigest (n : Nat) : Digest :=
  Mathlib.Vector.replicate 32 ⟨n % 256, Nat.mod_lt n (by decide)⟩

/-- Stand-in for the imported functions, on whole amounts: every byte of the
hash of a block is its timestamp plus the remainder modulo 3 of its nonce plus
the number of its transactions, and key `k` accepts the signature `k + 1` only. -/
def toyCrypto : Crypto Nat Nat Int where
  Hash := fun b =>
    constDigest (b.timestamp.toNat + (b.nonce.toNat + b.transactions.length) % 3)
  txDigest := fun _ => constDigest 0
  ecdsaVerify := fun pk _ s => s == pk + 1

/-- A second stand-in for the imported functions, which differs from
`toyCrypto` in the hash: one more is added before the remainder modulo 3 is
taken, so that the hash of the zero block `block.Block{}` is not the zero
digest. -/
def saltedCrypto : Crypto Nat Nat Int where
  Hash := fun b =>
    constDigest (b.timestamp.toNat + (b.nonce.toNat + b.transactions.length + 1) % 3)
  txDigest := fun _ => constDigest 0
  ecdsaVerify := fun pk _ s => s == pk + 1

/-- Node built by `NewBlockchain saltedCrypto "A" 5000 7 _`. -/
def sampleSaltedFresh : Blockchain Int :=
  { transactionPool := [], chain := [NewBlock 7 2 (constDigest 1) []],
    blockChainAddress := "A", port := 5000, neighbours := [] }

/-- Node built by `NewBlockchain toyCrypto "A" 5000 7 _`. -/
def sampleFresh : Blockchain Int :=
  { transactionPool := [], chain := [NewBlock 7 0 (constDigest 0) []],
    blockChainAddress := "A", port := 5000, neighbours := [] }

/-- The node `sampleFresh` after one `Mining` at clock reading 9. -/
def sampleMined : Blockchain Int :=
  { transactionPool := [],
    chain := [NewBlock 7 0 (constDigest 0) [],
      NewBlock 9 2 (constDigest 7) [NewTransaction cMINING_SENDER "A" 1]],
    blockChainAddress := "A", port := 5000, neighbours := [] }

/-- The node `sampleFresh` with one neighbour. -/
def sampleFreshWithPeer : Blockchain Int :=
  SetNeighbors sampleFresh ["192.168.0.2:5000"]

/-- The node `sampleMined` with two neighbours. -/
def sampleMinedWithPeers : Blockchain Int :=
  SetNeighbors sampleMined ["192.168.0.2:5000", "192.168.0.3:5000"]

/-- Neighbours that all answer 200 with the chain of `sampleMined`. -/
def sampleLongerAnswer : String → Option (Response Int) :=
  fun _ => some { statusCode := 200, chain := sampleMined.chain }

/-- Neighbours of which the first answers 200 with the one-block chain of
`sampleFresh` and the others answer 200 with a chain of three blocks whose last
block does not link to the second. -/
def sampleRejectedAnswer : String → Option (Response Int) :=
  fun n =>
    if n = "192.168.0.2:5000" then some { statusCode := 200, chain := sampleFresh.chain }
    else some { statusCode := 200,
                chain := sampleMined.chain ++ [NewBlock 11 0 (constDigest 0) []] }

/-- Calls on `sampleFresh`: it mines once, admits three signed transfers of 1
from `"A"` to `"B"`, and mines again. -/
def overdraftCalls : List (Op Nat Nat Int) :=
  [Op.mining 9 3,
   Op.addTransaction "A" "B" 1 (some 4) (some 5),
   Op.addTransaction "A" "B" 1 (some 4) (some 5),
   Op.addTransaction "A" "B" 1 (some 4) (some 5),
   Op.mining 11 3]

/-- Calls on `sampleFresh`: it mines, admits one signed transfer of 1 from
`"A"` to `"B"`, and mines again. -/
def transferCalls : List (Op Nat Nat Int) :=
  [Op.mining 9 3, Op.addTransaction "A" "B" 1 (some 4) (some 5), Op.mining 11 3]

/-- The node `sampleFresh` after `transferCalls`. -/
def sampleTransferred : Blockchain Int :=
  { transactionPool := [],
    chain := [NewBlock 7 0 (constDigest 0) [],
      NewBlock 9 2 (constDigest 7) [NewTransaction cMINING_SENDER "A" 1],
      NewBlock 11 1 (constDigest 9)
        [NewTransaction "A" "B" 1, NewTransaction cMINING_SENDER "A" 1]],
    blockChainAddress := "A", port := 5000, neighbours := [] }

/-- The node `sampleFresh` with the reward transaction for `"A"` in its pool,
as `Mining` has it when it calls `createBlock`. -/
def sampleRewarded : Blockchain Int :=
  { sampleFresh with transactionPool := [NewTransaction cMINING_SENDER "A" 1] }

/-- The node `sampleFresh` with three neighbours. -/
def sampleThreePeers : Blockchain Int :=
  SetNeighbors sampleFresh ["192.168.0.2:5000", "192.168.0.3:5000", "192.168.0.4:5000"]

/-- A chain of three blocks that differs from the chain of `sampleTransferred`
in the timestamp of its last block. -/
def sampleOtherChain : List (Block Int) :=
  [NewBlock 7 0 (constDigest 0) [],
   NewBlock 9 2 (constDigest 7) [NewTransaction cMINING_SENDER "A" 1],
   NewBlock 12 1 (constDigest 9)
     [NewTransaction "A" "B" 1, NewTransaction cMINING_SENDER "A" 1]]

/-- Neighbours of which the first answers with the two-block chain of
`sampleMined`, the second with the three-block chain of `sampleTransferred` and
the others with the three-block chain `sampleOtherChain`, all with status 200. -/
def sampleTieAnswer : String → Option (Response Int) :=
  fun n => some
    (if n = "192.168.0.2:5000" then { statusCode := 200, chain := sampleMined.chain }
     else if n = "192.168.0.3:5000" then
       { statusCode := 200, chain := sampleTransferred.chain }
     else { statusCode := 200, chain := sampleOtherChain })

/-- Neighbours that all answer 200 with a body that holds no chain. -/
def sampleEmptyAnswer : String → Option (Response Int) :=
  fun _ => some { statusCode := 200, chain := [] }

/-- The node `sampleMined` with an admitted transfer of `-5` in its pool. -/
def sampleNegative : Blockchain Int :=
  { sampleMined with transactionPool := [NewTransaction "A" "B" (-5)] }

/-! ## `ValidChain` -/

section ValidChainFacts

variable {PK Sig V : Type}

/-- One turn of the loop of `ValidChain`. -/
theorem validChainLoop_cons (E : Crypto PK Sig V) (preBlock b : Block V)
    (rest : List (Block V)) :
    validChainLoop E preBlock (b :: rest) = true ↔
      b.previousHash = E.Hash preBlock ∧
      validProof E b.nonce b.previousHash b.transactions MINING_DIFFICULTY = true ∧
      validChainLoop E b rest = true := by
  by_cases hlink : b.previousHash = E.Hash preBlock
  · by_cases hproof : validProof E b.nonce b.previousHash b.transactions
        MINING_DIFFICULTY = true
    · rw [validChainLoop, if_neg (not_not.mpr hlink), hproof]
      simp [hlink]
    · rw [validChainLoop, if_neg (not_not.mpr hlink)]
      simp [hlink, hproof]
  · rw [validChainLoop, if_pos hlink]
    simp [hlink]

/-- The loop of `ValidChain` accepts exactly when every block after `preBlock`
links to its predecessor and carries a valid proof. -/
theorem validChainLoop_iff (E : Crypto PK Sig V) (rest : List (Block V)) :
    ∀ preBlock : Block V, validChainLoop E preBlock rest = true ↔
      ∀ (i : Nat) (h : i + 1 < (preBlock :: rest).length),
        (preBlock :: rest)[i + 1].previousHash = E.Hash (preBlock :: rest)[i] ∧
        validProof E (preBlock :: rest)[i + 1].nonce (preBlock :: rest)[i + 1].previousHash
          (preBlock :: rest)[i + 1].transactions MINING_DIFFICULTY = true := by
  induction rest with
  | nil =>
    intro preBlock
    simp [validChainLoop]
  | cons b rest ih =>
    intro preBlock
    rw [validChainLoop_cons, ih b]
    constructor
    · rintro ⟨hlink, hproof, hrest⟩ i h
      cases i with
      | zero => exact ⟨hlink, hproof⟩
      | succ j => exact hrest j (by simpa using h)
    · intro hall
      refine ⟨(hall 0 (by simp)).1, (hall 0 (by simp)).2, ?_⟩
      intro i h
      exact hall (i + 1) (by simpa using h)

/-- Exactly the chains `ValidChain` accepts: the non-empty ones in which every
block from index 1 on links to its predecessor and carries a valid proof. -/
theorem ValidChain_true_iff (E : Crypto PK Sig V) (chain : List (Block V)) :
    ValidChain E chain = some true ↔
      chain ≠ [] ∧ ∀ (i : Nat) (_ : 1 ≤ i) (h : i < chain.length),
        chain[i].previousHash = E.Hash chain[i - 1] ∧
        validProof E chain[i].nonce chain[i].previousHash chain[i].transactions
          MINING_DIFFICULTY = true := by
  cases chain with
  | nil => simp [ValidChain]
  | cons preBlock rest =>
    rw [ValidChain, Option.some_inj, validChainLoop_iff]
    constructor
    · intro hall
      refine ⟨List.cons_ne_nil _ _, ?_⟩
      intro i h1 h
      obtain ⟨j, rfl⟩ : ∃ j, i = j + 1 := ⟨i - 1, by omega⟩
      exact hall j h
    · rintro ⟨_, hall⟩ i h
      exact hall (i + 1) (by omega) h

/-- C1: on a non-empty candidate chain `ValidChain` returns, and it returns
true exactly when every block at an index `i` with `1 ≤ i < len(cand)` has
`previous_hash` equal to the hash of block `i - 1` and passes `validProof` at
`MINING_DIFFICULTY`; a chain of one block is always accepted. -/
theorem ValidChain_iff_linked_and_proved (E : Crypto PK Sig V) (cand : List (Block V))
    (hc : cand ≠ []) :
    (ValidChain E cand = some true ∨ ValidChain E cand = some false) ∧
    (ValidChain E cand = some true ↔
      ∀ (i : Nat) (_ : 1 ≤ i) (h : i < cand.length),
        cand[i].previousHash = E.Hash cand[i - 1] ∧
        validProof E cand[i].nonce cand[i].previousHash cand[i].transactions
          MINING_DIFFICULTY = true) ∧
    (cand.length = 1 → ValidChain E cand = some true) := by
  have hiff := ValidChain_true_iff E cand
  refine ⟨?_, ⟨fun h => (hiff.1 h).2, fun h => hiff.2 ⟨hc, h⟩⟩, ?_⟩
  · cases cand with
    | nil => exact absurd rfl hc
    | cons preBlock rest =>
      cases hloop : validChainLoop E preBlock rest
      · exact Or.inr (by rw [ValidChain, hloop])
      · exact Or.inl (by rw [ValidChain, hloop])
  · intro hlen
    refine hiff.2 ⟨hc, ?_⟩
    intro i h1 h
    omega

/-- C1 at a concrete chain: two blocks, the second linked to the first and
carrying a valid proof. -/
theorem ValidChain_iff_linked_and_proved_witness :
    let cand : List (Block Int) :=
      [NewBlock 7 0 (constDigest 0) [], NewBlock 9 2 (constDigest 7) [NewTransaction "A" "B" 1]]
    cand ≠ [] ∧ ValidChain toyCrypto cand = some true ∧
    ((ValidChain toyCrypto cand = some true ∨ ValidChain toyCrypto cand = some false) ∧
    (ValidChain toyCrypto cand = some true ↔
      ∀ (i : Nat) (_ : 1 ≤ i) (h : i < cand.length),
        cand[i].previousHash = toyCrypto.Hash cand[i - 1] ∧
        validProof toyCrypto cand[i].nonce cand[i].previousHash cand[i].transactions
          MINING_DIFFICULTY = true) ∧
    (cand.length = 1 → ValidChain toyCrypto cand = some true)) :=
  ⟨by decide, by decide, ValidChain_iff_linked_and_proved toyCrypto _ (by decide)⟩

end ValidChainFacts

/-! ## Sealing a block -/

section Sealing

variable {PK Sig V : Type}

/-- The copy of the pool holds the same transactions as the pool. -/
theorem copyTransactionPool_eq (bc : Blockchain V) :
    copyTransactionPool bc = bc.transactionPool := by
  unfold copyTransactionPool NewTransaction
  exact List.map_id _

/-- A nonce returned by the search passes `validProof`. -/
theorem proofOfWorkLoop_valid (E : Crypto PK Sig V) (previousHash : Digest)
    (transactions : List (Transaction V)) (fuel : Nat) :
    ∀ (start nonce : Int),
      proofOfWorkLoop E previousHash transactions fuel start = some nonce →
      validProof E nonce previousHash transactions MINING_DIFFICULTY = true := by
  induction fuel with
  | zero =>
    intro start nonce h
    simp [proofOfWorkLoop] at h
  | succ fuel ih =>
    intro start nonce h
    rw [proofOfWorkLoop] at h
    split at h
    · next hvalid =>
      cases h
      exact hvalid
    · exact ih _ _ h

/-- Incrementing a nonce below the largest `int` adds one. -/
theorem incInt_eq (n : Int) (h0 : 0 ≤ n) (h1 : n + 1 < 2 ^ 63) : incInt n = n + 1 := by
  unfold incInt
  have hlt : n + 1 + 2 ^ 63 < 2 ^ 64 := by
    have h64 : (2 : Int) ^ 64 = 2 ^ 63 + 2 ^ 63 := by norm_num
    rw [h64]
    exact Int.add_lt_add_right h1 _
  have hnn : 0 ≤ n + 1 + 2 ^ 63 := by positivity
  rw [Int.emod_eq_of_lt hnn hlt]
  ring

/-- The search started at `k` returns `k + j` when that is the first nonce from
`k` on to pass `validProof`, it is an `int`, and more than `j` tests are
allowed. -/
theorem proofOfWorkLoop_finds (E : Crypto PK Sig V) (previousHash : Digest)
    (transactions : List (Transaction V)) (j : Nat) :
    ∀ (k fuel : Nat), ((k + j : Nat) : Int) < 2 ^ 63 → j < fuel →
      (∀ i : Nat, i < j →
        validProof E ((k + i : Nat) : Int) previousHash transactions MINING_DIFFICULTY = false) →
      validProof E ((k + j : Nat) : Int) previousHash transactions MINING_DIFFICULTY = true →
      proofOfWorkLoop E previousHash transactions fuel (k : Int) = some ((k + j : Nat) : Int) := by
  induction j with
  | zero =>
    intro k fuel _ hfuel _ hvalid
    obtain ⟨f, rfl⟩ : ∃ f, fuel = f + 1 := ⟨fuel - 1, by omega⟩
    rw [proofOfWorkLoop]
    rw [Nat.add_zero] at hvalid
    rw [if_pos hvalid, Nat.add_zero]
  | succ j ih =>
    intro k fuel hrange hfuel hfail hvalid
    obtain ⟨f, rfl⟩ : ∃ f, fuel = f + 1 := ⟨fuel - 1, by omega⟩
    have hk : validProof E (k : Int) previousHash transactions MINING_DIFFICULTY = false := by
      simpa using hfail 0 (Nat.succ_pos j)
    have hinc : incInt (k : Int) = ((k + 1 : Nat) : Int) := by
      rw [incInt_eq (k : Int) (Int.natCast_nonneg k)]
      · push_cast
        ring
      · have hle : ((k : Int) + 1) ≤ ((k + (j + 1) : Nat) : Int) := by
          push_cast
          omega
        exact lt_of_le_of_lt hle hrange
    rw [proofOfWorkLoop, hk, hinc]
    simp only [Bool.false_eq_true, if_false]
    have hstep := ih (k + 1) f (by rw [show k + 1 + j = k + (j + 1) by omega]; exact hrange)
      (by omega)
      (fun i hi => by
        rw [show k + 1 + i = k + (i + 1) by omega]
        exact hfail (i + 1) (by omega))
      (by rw [show k + 1 + j = k + (j + 1) by omega]; exact hvalid)
    rw [hstep, show k + 1 + j = k + (j + 1) by omega]

/-- When some nonce in the range of a non-negative `int` passes `validProof`,
the search from 0 returns the least such nonce as soon as enough tests are
allowed. -/
theorem proofOfWorkLoop_least (E : Crypto PK Sig V) (previousHash : Digest)
    (transactions : List (Transaction V))
    (hex : ∃ m : Int, 0 ≤ m ∧ m < 2 ^ 63 ∧
      validProof E m previousHash transactions MINING_DIFFICULTY = true) :
    ∃ n : Int, 0 ≤ n ∧ n < 2 ^ 63 ∧
      validProof E n previousHash transactions MINING_DIFFICULTY = true ∧
      (∀ m : Int, 0 ≤ m → m < n →
        validProof E m previousHash transactions MINING_DIFFICULTY = false) ∧
      ∀ fuel : Nat, n.toNat < fuel →
        proofOfWorkLoop E previousHash transactions fuel 0 = some n := by
  classical
  obtain ⟨m, hm0, hm1, hmv⟩ := hex
  have hexN : ∃ j : Nat, ((j : Nat) : Int) < 2 ^ 63 ∧
      validProof E (j : Int) previousHash transactions MINING_DIFFICULTY = true :=
    ⟨m.toNat, by rw [Int.toNat_of_nonneg hm0]; exact hm1,
      by rw [Int.toNat_of_nonneg hm0]; exact hmv⟩
  have hspec := Nat.find_spec hexN
  have hmin : ∀ i : Nat, i < Nat.find hexN →
      validProof E (i : Int) previousHash transactions MINING_DIFFICULTY = false := by
    intro i hi
    have hnot := Nat.find_min hexN hi
    have hrange : ((i : Nat) : Int) < 2 ^ 63 :=
      lt_trans (Int.ofNat_lt.2 hi) hspec.1
    cases hv : validProof E (i : Int) previousHash transactions MINING_DIFFICULTY with
    | false => rfl
    | true => exact absurd ⟨hrange, hv⟩ hnot
  refine ⟨(Nat.find hexN : Nat), Int.natCast_nonneg _, hspec.1, hspec.2, ?_, ?_⟩
  · intro x hx0 hxn
    have hx : x = ((x.toNat : Nat) : Int) := (Int.toNat_of_nonneg hx0).symm
    rw [hx]
    refine hmin x.toNat ?_
    rw [hx] at hxn
    exact Int.ofNat_lt.1 hxn
  · intro fuel hfuel
    have hfuel1 : Nat.find hexN < fuel := by simpa using hfuel
    have hfound := proofOfWorkLoop_finds E previousHash transactions (Nat.find hexN) 0 fuel
      (by simpa using hspec.1) hfuel1
      (fun i hi => by simpa using hmin i hi) (by simpa using hspec.2)
    simpa using hfound

/-- C13: when some nonce (a non-negative `int`) passes `validProof` against the
snapshot of the pool and the hash of the last block at `MINING_DIFFICULTY`,
`proofOfWork` terminates (it returns once enough tests are allowed) with the
least such nonce `n ≥ 0`: `validProof` holds for `n` and fails for every `m`
with `0 ≤ m < n`. The method returns the nonce only; it writes no field of the
node. -/
theorem proofOfWork_least (E : Crypto PK Sig V) (bc : Blockchain V)
    (hex : ∃ m : Int, 0 ≤ m ∧ m < 2 ^ 63 ∧
      validProof E m (E.Hash (lastBlock bc)) (copyTransactionPool bc)
        MINING_DIFFICULTY = true) :
    ∃ n : Int, 0 ≤ n ∧
      validProof E n (E.Hash (lastBlock bc)) (copyTransactionPool bc)
        MINING_DIFFICULTY = true ∧
      (∀ m : Int, 0 ≤ m → m < n →
        validProof E m (E.Hash (lastBlock bc)) (copyTransactionPool bc)
          MINING_DIFFICULTY = false) ∧
      ∀ fuel : Nat, n.toNat < fuel → proofOfWork E bc fuel = some n := by
  obtain ⟨n, hn0, _, hvalid, hleast, hfuel⟩ :=
    proofOfWorkLoop_least E (E.Hash (lastBlock bc)) (copyTransactionPool bc) hex
  exact ⟨n, hn0, hvalid, hleast, fun fuel hlt => hfuel fuel hlt⟩

/-- C13 at a concrete node: with the reward transaction in the pool of the
fresh node the nonces 0 and 1 fail and the search returns 2. -/
theorem proofOfWork_least_witness :
    proofOfWork toyCrypto sampleRewarded 3 = some 2 ∧
    ∃ n : Int, 0 ≤ n ∧
      validProof toyCrypto n (toyCrypto.Hash (lastBlock sampleRewarded))
        (copyTransactionPool sampleRewarded) MINING_DIFFICULTY = true ∧
      (∀ m : Int, 0 ≤ m → m < n →
        validProof toyCrypto m (toyCrypto.Hash (lastBlock sampleRewarded))
          (copyTransactionPool sampleRewarded) MINING_DIFFICULTY = false) ∧
      ∀ fuel : Nat, n.toNat < fuel → proofOfWork toyCrypto sampleRewarded fuel = some n :=
  ⟨by decide, proofOfWork_least toyCrypto sampleRewarded ⟨2, by decide, by decide, by decide⟩⟩

/-- What a returning `createBlock` did: it appended one block, stamped `now`,
whose nonce is the result of the search, whose `previous_hash` is the hash of
the former last block and whose transactions are the pool, and it emptied the
pool. -/
theorem createBlock_some (E : Crypto PK Sig V) (bc bc1 : Blockchain V) (now : Int)
    (fuel : Nat) (b : Block V) (h : createBlock E bc now fuel = some (bc1, b)) :
    ∃ nonce : Int,
      proofOfWorkLoop E (E.Hash (lastBlock bc)) bc.transactionPool fuel 0 = some nonce ∧
      b = NewBlock now nonce (E.Hash (lastBlock bc)) bc.transactionPool ∧
      bc1 = { bc with chain := bc.chain ++ [b], transactionPool := [] } := by
  unfold createBlock at h
  cases hpow : proofOfWork E bc fuel with
  | none => simp [hpow] at h
  | some nonce =>
    simp only [hpow, Option.some.injEq, Prod.mk.injEq] at h
    refine ⟨nonce, ?_, h.2.symm, ?_⟩
    · simpa [proofOfWork, copyTransactionPool_eq] using hpow
    · rw [← h.2]
      exact h.1.symm

/-- The last block of a chain that ends in `b`. -/
theorem lastBlock_append (bc : Blockchain V) (chain : List (Block V)) (b : Block V)
    (h : bc.chain = chain ++ [b]) : lastBlock bc = b := by
  simp [lastBlock, h]

/-- Appending one block to a chain the loop of `ValidChain` accepts: the longer
chain is accepted exactly when the new block links to the former last block and
carries a valid proof. -/
theorem validChainLoop_append (E : Crypto PK Sig V) (b : Block V) (rest : List (Block V)) :
    ∀ preBlock : Block V, validChainLoop E preBlock (rest ++ [b]) = true ↔
      validChainLoop E preBlock rest = true ∧
      b.previousHash = E.Hash ((preBlock :: rest).getLast (List.cons_ne_nil _ _)) ∧
      validProof E b.nonce b.previousHash b.transactions MINING_DIFFICULTY = true := by
  induction rest with
  | nil =>
    intro preBlock
    simp [validChainLoop_cons, validChainLoop]
  | cons x rest ih =>
    intro preBlock
    rw [List.cons_append, validChainLoop_cons, validChainLoop_cons, ih x]
    simp only [List.getLast_cons (List.cons_ne_nil x rest)]
    tauto

/-- The last block of a non-empty chain. -/
theorem lastBlock_cons (bc : Blockchain V) (preBlock : Block V) (rest : List (Block V))
    (h : bc.chain = preBlock :: rest) :
    lastBlock bc = (preBlock :: rest).getLast (List.cons_ne_nil _ _) := by
  simp [lastBlock, h, List.getLast?_eq_getLast]

/-- A chain `ValidChain` accepts stays accepted when a block is appended that
links to its last block and carries a valid proof. -/
theorem ValidChain_seal (E : Crypto PK Sig V) (bc : Blockchain V) (b : Block V)
    (hvalid : ValidChain E bc.chain = some true)
    (hlink : b.previousHash = E.Hash (lastBlock bc))
    (hproof : validProof E b.nonce b.previousHash b.transactions MINING_DIFFICULTY = true) :
    ValidChain E (bc.chain ++ [b]) = some true := by
  cases hchain : bc.chain with
  | nil => simp [hchain, ValidChain] at hvalid
  | cons preBlock rest =>
    rw [hchain, ValidChain, Option.some_inj] at hvalid
    rw [List.cons_append, ValidChain, Option.some_inj, validChainLoop_append]
    exact ⟨hvalid, by rw [← lastBlock_cons bc preBlock rest hchain]; exact hlink, hproof⟩

/-- A result whose first component is known. -/
theorem map_fst_some {α β : Type} (o : Option (α × β)) (a : α)
    (h : o.map Prod.fst = some a) : ∃ b : β, o = some (a, b) := by
  cases o with
  | none => simp at h
  | some p =>
    obtain ⟨x, y⟩ := p
    simp only [Option.map_some', Option.some.injEq] at h
    exact ⟨y, by rw [h]⟩

/-- What a returning `NewBlockchain` built: an empty pool, no neighbours and a
chain of one block, stamped `now`, with no transactions, whose `previous_hash`
is the hash of the zero block and whose nonce is the result of the search. -/
theorem NewBlockchain_some (E : Crypto PK Sig V) (addr : String) (port : Nat) (now : Int)
    (fuel : Nat) (bc0 : Blockchain V) (h : NewBlockchain E addr port now fuel = some bc0) :
    ∃ nonce : Int,
      proofOfWorkLoop E (E.Hash emptyBlock) [] fuel 0 = some nonce ∧
      bc0 = { transactionPool := [],
              chain := [NewBlock now nonce (E.Hash emptyBlock) []],
              blockChainAddress := addr, port := port, neighbours := [] } := by
  obtain ⟨b, hcreate⟩ := map_fst_some _ _ h
  obtain ⟨nonce, hpow, hb, hbc0⟩ := createBlock_some E _ _ _ _ _ hcreate
  refine ⟨nonce, hpow, ?_⟩
  rw [hbc0, hb]
  rfl

/-- When the nonce search returns, so does `createBlock`. -/
theorem createBlock_of_proofOfWork (E : Crypto PK Sig V) (bc : Blockchain V) (now : Int)
    (fuel : Nat) (nonce : Int) (hpow : proofOfWork E bc fuel = some nonce) :
    createBlock E bc now fuel =
      some ({ bc with
        chain := bc.chain ++ [NewBlock now nonce (E.Hash (lastBlock bc)) bc.transactionPool],
        transactionPool := [] },
        NewBlock now nonce (E.Hash (lastBlock bc)) bc.transactionPool) := by
  rw [createBlock, hpow]

/-- C12 as stated fails: with a hash that does not send the zero block
`block.Block{}` to the zero digest, the node `NewBlockchain` returns has a
genesis block whose `previous_hash`, the hash of that zero block, is not the
zero digest. -/
theorem genesis_previous_hash_counterexample :
    NewBlockchain saltedCrypto "A" 5000 7 3 = some sampleSaltedFresh ∧
    ∃ g : Block Int, sampleSaltedFresh.chain = [g] ∧
      g.previousHash = saltedCrypto.Hash emptyBlock ∧ g.previousHash ≠ zeroDigest :=
  ⟨by decide, NewBlock 7 2 (constDigest 1) [], by decide, by decide, by decide⟩

/-- C12, amended: for every address and port, every node `NewBlockchain`
returns has an empty pool and a chain of exactly one block, whose transaction
list is empty and whose `previous_hash` is the hash of the zero block
`block.Block{}` that `lastBlock` returns on the empty chain, which is the zero
digest exactly when the hash function sends that block to it; and
`NewBlockchain` returns as soon as enough nonce tests are allowed, when some
non-negative `int` nonce passes `validProof` on that hash and no
transactions. -/
theorem NewBlockchain_genesis (E : Crypto PK Sig V) (addr : String) (port : Nat)
    (now : Int) :
    (∀ (fuel : Nat) (bc : Blockchain V), NewBlockchain E addr port now fuel = some bc →
      bc.transactionPool = [] ∧ bc.chain.length = 1 ∧
      ∃ g : Block V, bc.chain = [g] ∧ g.previousHash = E.Hash emptyBlock ∧
        g.transactions = [] ∧
        (g.previousHash = zeroDigest ↔ E.Hash emptyBlock = zeroDigest)) ∧
    ((∃ m : Int, 0 ≤ m ∧ m < 2 ^ 63 ∧
        validProof E m (E.Hash emptyBlock) [] MINING_DIFFICULTY = true) →
      ∃ (fuel : Nat) (bc : Blockchain V), NewBlockchain E addr port now fuel = some bc) := by
  constructor
  · intro fuel bc hnew
    obtain ⟨nonce, _, hbc⟩ := NewBlockchain_some E addr port now fuel bc hnew
    rw [hbc]
    exact ⟨rfl, rfl, _, rfl, rfl, rfl, Iff.rfl⟩
  · intro hex
    obtain ⟨n, _, _, _, _, hfuel⟩ := proofOfWorkLoop_least E (E.Hash emptyBlock) [] hex
    have hpow : proofOfWork E
        ({ transactionPool := [], chain := [], blockChainAddress := addr, port := port,
           neighbours := [] } : Blockchain V) (n.toNat + 1) = some n := by
      have hloop := hfuel (n.toNat + 1) (Nat.lt_succ_self _)
      simpa [proofOfWork, copyTransactionPool, lastBlock] using hloop
    refine ⟨n.toNat + 1,
      { transactionPool := [],
        chain := [NewBlock now n (E.Hash emptyBlock) []],
        blockChainAddress := addr, port := port, neighbours := [] }, ?_⟩
    rw [NewBlockchain, createBlock_of_proofOfWork E _ now _ n hpow]
    rfl

/-- C12, amended, at concrete nodes: the fresh node of address `"A"` built with
`toyCrypto`, and the fact that `NewBlockchain` returns with `saltedCrypto`,
where the nonce 2 passes `validProof`. -/
theorem NewBlockchain_genesis_witness :
    NewBlockchain toyCrypto "A" 5000 7 1 = some sampleFresh ∧
    (sampleFresh.transactionPool = [] ∧ sampleFresh.chain.length = 1 ∧
      ∃ g : Block Int, sampleFresh.chain = [g] ∧ g.previousHash = toyCrypto.Hash emptyBlock ∧
        g.transactions = [] ∧
        (g.previousHash = zeroDigest ↔ toyCrypto.Hash emptyBlock = zeroDigest)) ∧
    ∃ (fuel : Nat) (bc : Blockchain Int),
      NewBlockchain saltedCrypto "A" 5000 7 fuel = some bc :=
  ⟨by decide,
   (NewBlockchain_genesis toyCrypto "A" 5000 7).1 1 sampleFresh (by decide),
   (NewBlockchain_genesis saltedCrypto "A" 5000 7).2 ⟨2, by decide, by decide, by decide⟩⟩

variable [Zero V] [One V] [Add V] [Sub V] [LT V] [DecidableRel (fun a b : V => a < b)]

/-- What a returning `Mining` did: it returned true, appended one block whose
transactions are the pool followed by the reward transaction, whose
`previous_hash` is the hash of the former last block and whose nonce is the
result of the search, and it emptied the pool. -/
theorem Mining_some (E : Crypto PK Sig V) (bc bc1 : Blockchain V) (now : Int) (fuel : Nat)
    (r : Bool) (h : Mining E bc now fuel = some (bc1, r)) :
    r = true ∧ ∃ nonce : Int,
      proofOfWorkLoop E (E.Hash (lastBlock bc))
        (bc.transactionPool ++ [NewTransaction cMINING_SENDER bc.blockChainAddress
          cMINING_REWARD]) fuel 0 = some nonce ∧
      bc1 = { bc with
        chain := bc.chain ++ [NewBlock now nonce (E.Hash (lastBlock bc))
          (bc.transactionPool ++ [NewTransaction cMINING_SENDER bc.blockChainAddress
            cMINING_REWARD])],
        transactionPool := [] } := by
  unfold Mining at h
  simp only [AddTransaction, if_true] at h
  split at h
  · simp at h
  · next bc2 b hcreate =>
    simp only [Option.some.injEq, Prod.mk.injEq] at h
    obtain ⟨nonce, hpow, hb, hbc2⟩ := createBlock_some E _ _ _ _ _ hcreate
    refine ⟨h.2.symm, nonce, hpow, ?_⟩
    rw [← h.1, hbc2, hb]
    rfl

/-- When the nonce search on the pool followed by the reward transaction
returns, `Mining` returns true and leaves the chain with the sealed block
appended and the pool empty. -/
theorem Mining_of_proofOfWork (E : Crypto PK Sig V) (bc : Blockchain V) (now : Int)
    (fuel : Nat) (nonce : Int)
    (hpow : proofOfWork E { bc with transactionPool := bc.transactionPool ++
      [NewTransaction cMINING_SENDER bc.blockChainAddress cMINING_REWARD] } fuel
      = some nonce) :
    Mining E bc now fuel = some ({ bc with
      chain := bc.chain ++ [NewBlock now nonce (E.Hash (lastBlock bc))
        (bc.transactionPool ++
          [NewTransaction cMINING_SENDER bc.blockChainAddress cMINING_REWARD])],
      transactionPool := [] }, true) := by
  have hcreate := createBlock_of_proofOfWork E _ now fuel nonce hpow
  simp only [Mining, AddTransaction, if_true, hcreate]
  rfl

/-- When some non-negative `int` nonce passes `validProof` on the hash of the
last block and the pool followed by the reward transaction, `Mining` returns
once enough nonce tests are allowed. -/
theorem Mining_returns (E : Crypto PK Sig V) (bc : Blockchain V) (now : Int)
    (hex : ∃ m : Int, 0 ≤ m ∧ m < 2 ^ 63 ∧
      validProof E m (E.Hash (lastBlock bc))
        (bc.transactionPool ++
          [NewTransaction cMINING_SENDER bc.blockChainAddress cMINING_REWARD])
        MINING_DIFFICULTY = true) :
    ∃ (fuel : Nat) (bc1 : Blockchain V), Mining E bc now fuel = some (bc1, true) := by
  obtain ⟨n, _, _, _, _, hfuel⟩ := proofOfWorkLoop_least E _ _ hex
  have hpow : proofOfWork E { bc with transactionPool := bc.transactionPool ++
      [NewTransaction cMINING_SENDER bc.blockChainAddress cMINING_REWARD] } (n.toNat + 1)
      = some n := by
    have hloop := hfuel (n.toNat + 1) (Nat.lt_succ_self _)
    rw [proofOfWork, copyTransactionPool_eq]
    exact hloop
  exact ⟨n.toNat + 1, _, Mining_of_proofOfWork E bc now (n.toNat + 1) n hpow⟩

/-- When some non-negative `int` nonce passes `validProof` on the hash of the
zero block and no transactions, `NewBlockchain` returns once enough nonce tests
are allowed. -/
theorem NewBlockchain_returns (E : Crypto PK Sig V) (addr : String) (port : Nat)
    (now : Int)
    (hex : ∃ m : Int, 0 ≤ m ∧ m < 2 ^ 63 ∧
      validProof E m (E.Hash emptyBlock) [] MINING_DIFFICULTY = true) :
    ∃ (fuel : Nat) (bc : Blockchain V), NewBlockchain E addr port now fuel = some bc := by
  obtain ⟨n, _, _, _, _, hfuel⟩ := proofOfWorkLoop_least E (E.Hash emptyBlock) [] hex
  have hpow : proofOfWork E
      ({ transactionPool := [], chain := [], blockChainAddress := addr, port := port,
         neighbours := [] } : Blockchain V) (n.toNat + 1) = some n := by
    have hloop := hfuel (n.toNat + 1) (Nat.lt_succ_self _)
    simpa [proofOfWork, copyTransactionPool, lastBlock] using hloop
  refine ⟨n.toNat + 1,
    { transactionPool := [],
      chain := [NewBlock now n (E.Hash emptyBlock) []],
      blockChainAddress := addr, port := port, neighbours := [] }, ?_⟩
  rw [NewBlockchain, createBlock_of_proofOfWork E _ now _ n hpow]
  rfl

/-- A run that starts with a returning `Mining` continues from the node that
`Mining` leaves. -/
theorem run_cons_mining (E : Crypto PK Sig V) (bc bc1 : Blockchain V) (now : Int)
    (fuel : Nat) (r : Bool) (ops : List (Op PK Sig V))
    (h : Mining E bc now fuel = some (bc1, r)) :
    run E (Op.mining now fuel :: ops) bc = run E ops bc1 := by
  simp [run, Op.apply, h]

/-- A run of `Mining` calls returns when each of its nonce searches, on the
node the run has reached by then, returns. -/
theorem run_mining_of_searches (E : Crypto PK Sig V) (mines : List (Int × Nat)) :
    ∀ bc0 : Blockchain V,
      (∀ (pre : List (Int × Nat)) (m : Int × Nat) (post : List (Int × Nat))
        (bck : Blockchain V), mines = pre ++ m :: post →
        run E (pre.map (fun m => Op.mining m.1 m.2)) bc0 = some bck →
        ∃ nonce : Int, proofOfWork E { bck with transactionPool := bck.transactionPool ++
          [NewTransaction cMINING_SENDER bck.blockChainAddress cMINING_REWARD] } m.2
          = some nonce) →
      ∃ bc : Blockchain V, run E (mines.map (fun m => Op.mining m.1 m.2)) bc0 = some bc := by
  induction mines with
  | nil => exact fun bc0 _ => ⟨bc0, rfl⟩
  | cons m rest ih =>
    intro bc0 hsearch
    obtain ⟨nonce, hpow⟩ := hsearch [] m rest bc0 rfl rfl
    have hmine := Mining_of_proofOfWork E bc0 m.1 m.2 nonce hpow
    obtain ⟨bc, hrun⟩ := ih _ (fun pre k post bck hsplit hpre =>
      hsearch (m :: pre) k post bck (by rw [hsplit, List.cons_append])
        (by rw [List.map_cons, run_cons_mining E bc0 _ m.1 m.2 true _ hmine]; exact hpre))
    exact ⟨bc, by rw [List.map_cons, run_cons_mining E bc0 _ m.1 m.2 true _ hmine]; exact hrun⟩

/-- When every nonce search has a non-negative `int` solution, a run of
`Mining` calls at given clock readings returns once enough nonce tests are
allowed to each call. -/
theorem run_mining_returns (E : Crypto PK Sig V)
    (hfind : ∀ (previousHash : Digest) (transactions : List (Transaction V)),
      ∃ m : Int, 0 ≤ m ∧ m < 2 ^ 63 ∧
        validProof E m previousHash transactions MINING_DIFFICULTY = true)
    (nows : List Int) :
    ∀ bc0 : Blockchain V, ∃ (fuels : List Nat) (bc : Blockchain V),
      fuels.length = nows.length ∧
      run E ((nows.zip fuels).map (fun m => Op.mining m.1 m.2)) bc0 = some bc := by
  induction nows with
  | nil => exact fun bc0 => ⟨[], bc0, rfl, rfl⟩
  | cons now rest ih =>
    intro bc0
    obtain ⟨fuel, bc1, hmine⟩ := Mining_returns E bc0 now (hfind _ _)
    obtain ⟨fuels, bc, hlen, hrun⟩ := ih bc1
    refine ⟨fuel :: fuels, bc, by simp [hlen], ?_⟩
    rw [List.zip_cons_cons, List.map_cons, run_cons_mining E bc0 bc1 now fuel true _ hmine]
    exact hrun

/-- A returning `Mining` keeps the chain acceptable to `ValidChain`. -/
theorem Mining_ValidChain (E : Crypto PK Sig V) (bc bc1 : Blockchain V) (now : Int)
    (fuel : Nat) (r : Bool) (h : Mining E bc now fuel = some (bc1, r))
    (hvalid : ValidChain E bc.chain = some true) :
    ValidChain E bc1.chain = some true := by
  obtain ⟨_, nonce, hpow, hbc1⟩ := Mining_some E bc bc1 now fuel r h
  rw [hbc1]
  exact ValidChain_seal E bc _ hvalid rfl (proofOfWorkLoop_valid E _ _ _ _ _ hpow)

end Sealing

/-! ## `ResolveConflicts` -/

section Resolving

variable {PK Sig V : Type}

/-- A returning turn of the loop of `ResolveConflicts` either keeps the pair
`(longestChain, maxLength)` or replaces it by a chain with status 200, longer
than `maxLength` and accepted by `ValidChain`, and its length. -/
theorem resolveStep_some (E : Crypto PK Sig V) (acc acc1 : Option (List (Block V)) × Nat)
    (resp : Option (Response V)) (h : resolveStep E acc resp = some acc1) :
    acc1 = acc ∨ ∃ r : Response V, resp = some r ∧ r.statusCode = 200 ∧
      acc.2 < r.chain.length ∧ ValidChain E r.chain = some true ∧
      acc1 = (some r.chain, r.chain.length) := by
  cases resp with
  | none => simp [resolveStep] at h
  | some r =>
    by_cases hstatus : r.statusCode = 200
    · by_cases hlen : r.chain.length > acc.2
      · cases hvalid : ValidChain E r.chain with
        | none => simp [resolveStep, hstatus, hlen, hvalid] at h
        | some v =>
          cases v with
          | true =>
            simp only [resolveStep, hstatus, hlen, hvalid, if_true, Option.some.injEq] at h
            exact Or.inr ⟨r, rfl, hstatus, hlen, hvalid, h.symm⟩
          | false =>
            simp only [resolveStep, hstatus, hlen, hvalid, if_true, Option.some.injEq] at h
            exact Or.inl h.symm
      · simp only [resolveStep, hstatus, hlen, if_true, if_false, Option.some.injEq] at h
        exact Or.inl h.symm
    · simp only [resolveStep, hstatus, if_false, Option.some.injEq] at h
      exact Or.inl h.symm

/-- A property of the pair `(longestChain, maxLength)` that every returning
turn keeps is kept by the whole loop. -/
theorem resolveLoop_preserves (E : Crypto PK Sig V) (httpGet : String → Option (Response V))
    (P : Option (List (Block V)) × Nat → Prop)
    (hstep : ∀ (acc acc1 : Option (List (Block V)) × Nat) (n : String),
      P acc → resolveStep E acc (httpGet n) = some acc1 → P acc1)
    (neighbours : List String) :
    ∀ acc acc1 : Option (List (Block V)) × Nat, P acc →
      resolveLoop E httpGet neighbours acc = some acc1 → P acc1 := by
  induction neighbours with
  | nil =>
    intro acc acc1 hP h
    simp only [resolveLoop, Option.some.injEq] at h
    exact h ▸ hP
  | cons n rest ih =>
    intro acc acc1 hP h
    rw [resolveLoop] at h
    split at h
    · simp at h
    · next acc2 hturn => exact ih acc2 acc1 (hstep acc acc2 n hP hturn) h

/-- The loop of `ResolveConflicts` keeps `ResolveInv`. -/
theorem resolveLoop_inv (E : Crypto PK Sig V) (httpGet : String → Option (Response V))
    (localLength : Nat) (neighbours : List String)
    (acc acc1 : Option (List (Block V)) × Nat) (hinv : ResolveInv E localLength acc)
    (h : resolveLoop E httpGet neighbours acc = some acc1) :
    ResolveInv E localLength acc1 := by
  refine resolveLoop_preserves E httpGet (ResolveInv E localLength) ?_ neighbours acc acc1 hinv h
  intro a a1 n ha hturn
  rcases resolveStep_some E a a1 (httpGet n) hturn with hkeep | ⟨r, _, _, hlen, hvalid, ha1⟩
  · exact hkeep ▸ ha
  · rw [ha1]
    refine ⟨hvalid, rfl, ?_⟩
    obtain ⟨held, maxLength⟩ := a
    cases held with
    | none =>
      have hmax : maxLength = localLength := ha
      simp only at hlen
      omega
    | some chain =>
      have hheld : ValidChain E chain = some true ∧ chain.length = maxLength ∧
          localLength < chain.length := ha
      simp only at hlen
      omega

/-- What a returning `ResolveConflicts` did: either it returned false and left
the node as it was, or it returned true and replaced the chain by one that
`ValidChain` accepts and that is longer than the former chain. -/
theorem ResolveConflicts_some (E : Crypto PK Sig V) (bc bc1 : Blockchain V)
    (httpGet : String → Option (Response V)) (r : Bool)
    (h : ResolveConflicts E bc httpGet = some (bc1, r)) :
    (r = false ∧ bc1 = bc) ∨
    (r = true ∧ ∃ longestChain : List (Block V),
      bc1 = { bc with chain := longestChain } ∧
      ValidChain E longestChain = some true ∧ bc.chain.length < longestChain.length) := by
  unfold ResolveConflicts at h
  split at h
  · simp at h
  · next longestChain maxLength hloop =>
    have hstart : ResolveInv E bc.chain.length (none, bc.chain.length) := rfl
    have hinv := resolveLoop_inv E httpGet bc.chain.length bc.neighbours _ _ hstart hloop
    have hheld : ValidChain E longestChain = some true ∧ longestChain.length = maxLength ∧
        bc.chain.length < longestChain.length := hinv
    simp only [Option.some.injEq, Prod.mk.injEq] at h
    exact Or.inr ⟨h.2.symm, longestChain, h.1.symm, hheld.1, hheld.2.2⟩
  · simp only [Option.some.injEq, Prod.mk.injEq] at h
    exact Or.inl ⟨h.2.symm, h.1.symm⟩

/-- C5: when the only neighbour answers with status 200 and a chain that is
`k ≥ 1` blocks longer than the local chain and that `ValidChain` accepts,
`ResolveConflicts` returns true and the local chain becomes that chain. -/
theorem ResolveConflicts_adopts_longer (E : Crypto PK Sig V) (bc : Blockchain V)
    (httpGet : String → Option (Response V)) (n : String) (r : Response V) (k : Nat)
    (hn : bc.neighbours = [n]) (hget : httpGet n = some r) (hstatus : r.statusCode = 200)
    (hk : 1 ≤ k) (hlen : r.chain.length = bc.chain.length + k)
    (hvalid : ValidChain E r.chain = some true) :
    ResolveConflicts E bc httpGet = some ({ bc with chain := r.chain }, true) := by
  have hlonger : r.chain.length > bc.chain.length := by omega
  simp [ResolveConflicts, hn, resolveLoop, resolveStep, hget, hstatus, hlonger, hvalid]

/-- C5 at a concrete node: a fresh node whose neighbour answers with the
two-block chain of a node that mined once. -/
theorem ResolveConflicts_adopts_longer_witness :
    ResolveConflicts toyCrypto sampleFreshWithPeer sampleLongerAnswer =
      some ({ sampleFreshWithPeer with chain := sampleMined.chain }, true) :=
  ResolveConflicts_adopts_longer toyCrypto sampleFreshWithPeer sampleLongerAnswer
    "192.168.0.2:5000" { statusCode := 200, chain := sampleMined.chain } 1
    (by decide) (by decide) (by decide) (by decide) (by decide) (by decide)

/-- A turn of the loop of `ResolveConflicts` that holds no chain yet keeps
holding none when the answer is not a chain with status 200, longer than
`maxLength` and accepted by `ValidChain`. -/
theorem resolveStep_keeps (E : Crypto PK Sig V) (maxLength : Nat) (r : Response V)
    (hno : ¬ (r.statusCode = 200 ∧ maxLength < r.chain.length ∧
      ValidChain E r.chain = some true)) :
    resolveStep E (none, maxLength) (some r) = some (none, maxLength) := by
  by_cases hstatus : r.statusCode = 200
  · by_cases hlen : r.chain.length > maxLength
    · cases hchain : r.chain with
      | nil => simp [hchain] at hlen
      | cons preBlock rest =>
        cases hloop : validChainLoop E preBlock rest with
        | true =>
          exact absurd ⟨hstatus, hlen, by rw [hchain, ValidChain, hloop]⟩ hno
        | false =>
          have hlen1 : (preBlock :: rest).length > maxLength := hchain ▸ hlen
          simp only [resolveStep, hstatus, hchain, hlen1, if_true, ValidChain, hloop]
    · simp only [resolveStep, hstatus, hlen, if_true, if_false]
  · simp only [resolveStep, hstatus, if_false]

/-- The loop of `ResolveConflicts` ends holding no chain when no neighbour
answers with a chain of status 200, longer than `maxLength` and accepted by
`ValidChain`. -/
theorem resolveLoop_keeps (E : Crypto PK Sig V) (httpGet : String → Option (Response V))
    (maxLength : Nat) (neighbours : List String)
    (hresp : ∀ n ∈ neighbours, ∃ r : Response V, httpGet n = some r ∧
      ¬ (r.statusCode = 200 ∧ maxLength < r.chain.length ∧
        ValidChain E r.chain = some true)) :
    resolveLoop E httpGet neighbours (none, maxLength) = some (none, maxLength) := by
  induction neighbours with
  | nil => rfl
  | cons n rest ih =>
    obtain ⟨r, hget, hno⟩ := hresp n (List.mem_cons_self n rest)
    rw [resolveLoop, hget, resolveStep_keeps E maxLength r hno]
    exact ih (fun m hm => hresp m (List.mem_cons_of_mem n hm))

/-- C6: when every neighbour answers and no answer is a chain, returned with
status 200, that is both strictly longer than the local chain and accepted by
`ValidChain`, `ResolveConflicts` returns false and leaves the node, its chain
included, as it was. -/
theorem ResolveConflicts_rejects (E : Crypto PK Sig V) (bc : Blockchain V)
    (httpGet : String → Option (Response V))
    (hresp : ∀ n ∈ bc.neighbours, ∃ r : Response V, httpGet n = some r ∧
      ¬ (r.statusCode = 200 ∧ bc.chain.length < r.chain.length ∧
        ValidChain E r.chain = some true)) :
    ResolveConflicts E bc httpGet = some (bc, false) := by
  rw [ResolveConflicts, resolveLoop_keeps E httpGet bc.chain.length bc.neighbours hresp]

/-- C6 at a concrete node: a node with a two-block chain, one neighbour
answering with a shorter chain and one with a longer chain that breaks the
linkage. -/
theorem ResolveConflicts_rejects_witness :
    ResolveConflicts toyCrypto sampleMinedWithPeers sampleRejectedAnswer =
      some (sampleMinedWithPeers, false) :=
  ResolveConflicts_rejects toyCrypto sampleMinedWithPeers sampleRejectedAnswer (by
    intro n hn
    by_cases hfirst : n = "192.168.0.2:5000"
    · exact ⟨{ statusCode := 200, chain := sampleFresh.chain },
        by simp [sampleRejectedAnswer, hfirst], by decide⟩
    · exact ⟨{ statusCode := 200,
               chain := sampleMined.chain ++ [NewBlock 11 0 (constDigest 0) []] },
        by simp [sampleRejectedAnswer, hfirst], by decide⟩)

/-- C15 fails on the code: with one neighbour whose `GET /chain` fails,
`http.Get` hands back no response and the test `resp.StatusCode == 200`
dereferences it, so `ResolveConflicts` panics instead of skipping the
neighbour; without that neighbour in the list it returns false and keeps the
chain. -/
theorem ResolveConflicts_failed_get_panics :
    sampleFreshWithPeer.neighbours = ["192.168.0.2:5000"] ∧
    ResolveConflicts toyCrypto sampleFreshWithPeer (fun _ => none) = none ∧
    ResolveConflicts toyCrypto (SetNeighbors sampleFreshWithPeer []) (fun _ => none) =
      some (SetNeighbors sampleFreshWithPeer [], false) :=
  ⟨by decide, by decide, by decide⟩

/-- A turn of the loop of `ResolveConflicts` on an answer returns: the index
panic of `ValidChain` cannot occur in it. -/
theorem resolveStep_total (E : Crypto PK Sig V) (acc : Option (List (Block V)) × Nat)
    (r : Response V) : ∃ acc1, resolveStep E acc (some r) = some acc1 := by
  have hsome : resolveStep E acc (some r) ≠ none := by
    by_cases hstatus : r.statusCode = 200
    · by_cases hlen : r.chain.length > acc.2
      · cases hchain : r.chain with
        | nil => simp [hchain] at hlen
        | cons preBlock rest =>
          have hlen1 : acc.2 < rest.length + 1 := by simpa [hchain] using hlen
          cases hloop : validChainLoop E preBlock rest with
          | true => simp [resolveStep, hstatus, hchain, hlen1, ValidChain, hloop]
          | false => simp [resolveStep, hstatus, hchain, hlen1, ValidChain, hloop]
      · simp [resolveStep, hstatus, hlen]
    · simp [resolveStep, hstatus]
  exact Option.ne_none_iff_exists'.1 hsome

/-- The loop of `ResolveConflicts` returns when every neighbour answers. -/
theorem resolveLoop_total (E : Crypto PK Sig V) (httpGet : String → Option (Response V))
    (neighbours : List String)
    (hresp : ∀ n ∈ neighbours, ∃ r : Response V, httpGet n = some r) :
    ∀ acc, ∃ acc1, resolveLoop E httpGet neighbours acc = some acc1 := by
  induction neighbours with
  | nil => exact fun acc => ⟨acc, rfl⟩
  | cons n rest ih =>
    intro acc
    obtain ⟨r, hget⟩ := hresp n (List.mem_cons_self n rest)
    obtain ⟨acc1, hturn⟩ := resolveStep_total E acc r
    obtain ⟨acc2, hloop⟩ := ih (fun m hm => hresp m (List.mem_cons_of_mem n hm)) acc1
    exact ⟨acc2, by rw [resolveLoop, hget, hturn]; exact hloop⟩

/-- `ResolveConflicts` returns when every neighbour answers. -/
theorem ResolveConflicts_total (E : Crypto PK Sig V) (bc : Blockchain V)
    (httpGet : String → Option (Response V))
    (hresp : ∀ n ∈ bc.neighbours, ∃ r : Response V, httpGet n = some r) :
    ∃ (bc1 : Blockchain V) (r : Bool), ResolveConflicts E bc httpGet = some (bc1, r) := by
  obtain ⟨acc1, hloop⟩ := resolveLoop_total E httpGet bc.neighbours hresp (none, bc.chain.length)
  obtain ⟨held, maxLength⟩ := acc1
  cases held with
  | none => exact ⟨bc, false, by rw [ResolveConflicts, hloop]⟩
  | some longestChain =>
    exact ⟨{ bc with chain := longestChain }, true, by rw [ResolveConflicts, hloop]⟩

/-- C18: `ResolveConflicts` never touches the transaction pool: whenever it
returns, with the chain replaced or not, the pool (and the address, port and
neighbour list) is what it was; and it returns whenever every neighbour
answers. -/
theorem ResolveConflicts_keeps_pool (E : Crypto PK Sig V) (bc : Blockchain V)
    (httpGet : String → Option (Response V)) :
    (∀ (bc1 : Blockchain V) (r : Bool), ResolveConflicts E bc httpGet = some (bc1, r) →
      bc1.transactionPool = bc.transactionPool ∧
      bc1.blockChainAddress = bc.blockChainAddress ∧ bc1.port = bc.port ∧
      bc1.neighbours = bc.neighbours) ∧
    ((∀ n ∈ bc.neighbours, ∃ r : Response V, httpGet n = some r) →
      ∃ (bc1 : Blockchain V) (r : Bool), ResolveConflicts E bc httpGet = some (bc1, r) ∧
        bc1.transactionPool = bc.transactionPool) := by
  have hframe : ∀ (bc1 : Blockchain V) (r : Bool),
      ResolveConflicts E bc httpGet = some (bc1, r) →
      bc1.transactionPool = bc.transactionPool ∧
      bc1.blockChainAddress = bc.blockChainAddress ∧ bc1.port = bc.port ∧
      bc1.neighbours = bc.neighbours := by
    intro bc1 r h
    rcases ResolveConflicts_some E bc bc1 httpGet r h with ⟨_, hbc1⟩ | ⟨_, _, hbc1, _, _⟩
    · rw [hbc1]
      exact ⟨rfl, rfl, rfl, rfl⟩
    · rw [hbc1]
      exact ⟨rfl, rfl, rfl, rfl⟩
  refine ⟨hframe, ?_⟩
  intro hresp
  obtain ⟨bc1, r, h⟩ := ResolveConflicts_total E bc httpGet hresp
  exact ⟨bc1, r, h, (hframe bc1 r h).1⟩

/-- C18 at a concrete node: a node with a pending transfer adopts the longer
chain of its neighbour and keeps the transfer in its pool. -/
theorem ResolveConflicts_keeps_pool_witness :
    ResolveConflicts toyCrypto
        { sampleFreshWithPeer with transactionPool := [NewTransaction "A" "B" 1] }
        sampleLongerAnswer =
      some ({ sampleFreshWithPeer with
        transactionPool := [NewTransaction "A" "B" 1], chain := sampleMined.chain }, true) ∧
    ({ sampleFreshWithPeer with
        transactionPool := [NewTransaction "A" "B" 1],
        chain := sampleMined.chain } : Blockchain Int).transactionPool =
      ({ sampleFreshWithPeer with
        transactionPool := [NewTransaction "A" "B" 1] } : Blockchain Int).transactionPool :=
  ⟨by decide,
   ((ResolveConflicts_keeps_pool toyCrypto
      { sampleFreshWithPeer with transactionPool := [NewTransaction "A" "B" 1] }
      sampleLongerAnswer).1 _ true (by decide)).1⟩

/-- A turn of the loop of `ResolveConflicts` on an answer that qualifies
against `maxLength` holds its chain afterwards. -/
theorem resolveStep_qualifies (E : Crypto PK Sig V) (acc : Option (List (Block V)) × Nat)
    (r : Response V) (hq : Qualifies E acc.2 r) :
    resolveStep E acc (some r) = some (some r.chain, r.chain.length) := by
  obtain ⟨hstatus, hlen, hvalid⟩ := hq
  have hlen1 : r.chain.length > acc.2 := hlen
  simp only [resolveStep, hstatus, hlen1, hvalid, if_true]

/-- A turn of the loop of `ResolveConflicts` on an answer that does not qualify
against `maxLength` changes nothing. -/
theorem resolveStep_not_qualifies (E : Crypto PK Sig V)
    (acc : Option (List (Block V)) × Nat) (r : Response V) (hno : ¬ Qualifies E acc.2 r) :
    resolveStep E acc (some r) = some acc := by
  obtain ⟨acc1, hturn⟩ := resolveStep_total E acc r
  rcases resolveStep_some E acc acc1 (some r) hturn with hkeep | ⟨r1, hr1, hst, hlen, hvalid, _⟩
  · rw [hturn, hkeep]
  · cases hr1
    exact absurd ⟨hst, hlen, hvalid⟩ hno

/-- Result of the loop of `ResolveConflicts` when every neighbour answers:
either no answer qualifies against `maxLength` and the pair
`(longestChain, maxLength)` is unchanged, or the loop ends holding the chain of
an answer that qualifies, is strictly longer than every qualifying answer
before it and at least as long as every qualifying answer after it. -/
theorem resolveLoop_first_longest (E : Crypto PK Sig V)
    (httpGet : String → Option (Response V)) (neighbours : List String) :
    ∀ (held : Option (List (Block V))) (maxLength : Nat),
      (∀ n ∈ neighbours, ∃ r : Response V, httpGet n = some r) →
      ((∀ n ∈ neighbours, ∀ r : Response V, httpGet n = some r →
          ¬ Qualifies E maxLength r) ∧
        resolveLoop E httpGet neighbours (held, maxLength) = some (held, maxLength)) ∨
      (∃ (pre : List String) (n : String) (post : List String) (r : Response V),
        neighbours = pre ++ n :: post ∧ httpGet n = some r ∧ Qualifies E maxLength r ∧
        (∀ x ∈ pre, ∀ r1 : Response V, httpGet x = some r1 → Qualifies E maxLength r1 →
          r1.chain.length < r.chain.length) ∧
        (∀ x ∈ post, ∀ r1 : Response V, httpGet x = some r1 → Qualifies E maxLength r1 →
          r1.chain.length ≤ r.chain.length) ∧
        resolveLoop E httpGet neighbours (held, maxLength) =
          some (some r.chain, r.chain.length)) := by
  induction neighbours with
  | nil =>
    intro held maxLength _
    exact Or.inl ⟨fun n hn => absurd hn (List.not_mem_nil n), rfl⟩
  | cons n rest ih =>
    intro held maxLength hresp
    obtain ⟨r0, hget0⟩ := hresp n (List.mem_cons_self n rest)
    have hrest : ∀ x ∈ rest, ∃ r : Response V, httpGet x = some r :=
      fun x hx => hresp x (List.mem_cons_of_mem n hx)
    by_cases hq : Qualifies E maxLength r0
    · have hturn : resolveLoop E httpGet (n :: rest) (held, maxLength) =
          resolveLoop E httpGet rest (some r0.chain, r0.chain.length) := by
        rw [resolveLoop, hget0, resolveStep_qualifies E (held, maxLength) r0 hq]
      rcases ih (some r0.chain) r0.chain.length hrest with
        ⟨hnone, hloop⟩ | ⟨pre, m, post, r, hsplit, hget, hqr, hpre, hpost, hloop⟩
      · refine Or.inr ⟨[], n, rest, r0, rfl, hget0, hq,
          fun x hx => absurd hx (List.not_mem_nil x), ?_, by rw [hturn, hloop]⟩
        intro x hx r1 hget1 hq1
        by_contra hgt
        exact hnone x hx r1 hget1 ⟨hq1.1, Nat.lt_of_not_le hgt, hq1.2.2⟩
      · refine Or.inr ⟨n :: pre, m, post, r, by rw [hsplit, List.cons_append], hget,
          ⟨hqr.1, lt_trans hq.2.1 hqr.2.1, hqr.2.2⟩, ?_, ?_, by rw [hturn, hloop]⟩
        · intro x hx r1 hget1 hq1
          rcases List.mem_cons.1 hx with hxn | hxpre
          · rw [hxn, hget0] at hget1
            cases hget1
            exact hqr.2.1
          · by_cases hgt : r0.chain.length < r1.chain.length
            · exact hpre x hxpre r1 hget1 ⟨hq1.1, hgt, hq1.2.2⟩
            · exact lt_of_le_of_lt (Nat.le_of_not_lt hgt) hqr.2.1
        · intro x hx r1 hget1 hq1
          by_cases hgt : r0.chain.length < r1.chain.length
          · exact hpost x hx r1 hget1 ⟨hq1.1, hgt, hq1.2.2⟩
          · exact le_of_lt (lt_of_le_of_lt (Nat.le_of_not_lt hgt) hqr.2.1)
    · have hturn : resolveLoop E httpGet (n :: rest) (held, maxLength) =
          resolveLoop E httpGet rest (held, maxLength) := by
        rw [resolveLoop, hget0, resolveStep_not_qualifies E (held, maxLength) r0 hq]
      rcases ih held maxLength hrest with
        ⟨hnone, hloop⟩ | ⟨pre, m, post, r, hsplit, hget, hqr, hpre, hpost, hloop⟩
      · refine Or.inl ⟨?_, by rw [hturn, hloop]⟩
        intro x hx r1 hget1
        rcases List.mem_cons.1 hx with hxn | hxrest
        · rw [hxn, hget0] at hget1
          cases hget1
          exact hq
        · exact hnone x hxrest r1 hget1
      · refine Or.inr ⟨n :: pre, m, post, r, by rw [hsplit, List.cons_append], hget, hqr,
          ?_, hpost, by rw [hturn, hloop]⟩
        intro x hx r1 hget1 hq1
        rcases List.mem_cons.1 hx with hxn | hxpre
        · rw [hxn, hget0] at hget1
          cases hget1
          exact absurd hq1 hq
        · exact hpre x hxpre r1 hget1 hq1

/-- C16: when every neighbour answers and at least one answer is a chain, with
status 200, strictly longer than the local chain and accepted by `ValidChain`,
`ResolveConflicts` returns true and replaces the local chain by such a chain of
maximal length, taken from the first neighbour of the list, among those of
that length: every qualifying answer of an earlier neighbour is strictly
shorter, every qualifying answer of a later neighbour is not longer. -/
theorem ResolveConflicts_adopts_first_longest (E : Crypto PK Sig V) (bc : Blockchain V)
    (httpGet : String → Option (Response V))
    (hresp : ∀ n ∈ bc.neighbours, ∃ r : Response V, httpGet n = some r)
    (hqual : ∃ n ∈ bc.neighbours, ∃ r : Response V,
      httpGet n = some r ∧ Qualifies E bc.chain.length r) :
    ∃ (pre : List String) (n : String) (post : List String) (r : Response V),
      bc.neighbours = pre ++ n :: post ∧ httpGet n = some r ∧
      Qualifies E bc.chain.length r ∧
      (∀ x ∈ pre, ∀ r1 : Response V, httpGet x = some r1 →
        Qualifies E bc.chain.length r1 → r1.chain.length < r.chain.length) ∧
      (∀ x ∈ post, ∀ r1 : Response V, httpGet x = some r1 →
        Qualifies E bc.chain.length r1 → r1.chain.length ≤ r.chain.length) ∧
      ResolveConflicts E bc httpGet = some ({ bc with chain := r.chain }, true) := by
  rcases resolveLoop_first_longest E httpGet bc.neighbours none bc.chain.length hresp with
    ⟨hnone, _⟩ | ⟨pre, n, post, r, hsplit, hget, hq, hpre, hpost, hloop⟩
  · obtain ⟨n, hn, r, hget, hq⟩ := hqual
    exact absurd hq (hnone n hn r hget)
  · exact ⟨pre, n, post, r, hsplit, hget, hq, hpre, hpost, by rw [ResolveConflicts, hloop]⟩

/-- C16 at a concrete node: of three neighbours answering with valid chains of
2, 3 and 3 blocks, the chain of the second is adopted. -/
theorem ResolveConflicts_adopts_first_longest_witness :
    ResolveConflicts toyCrypto sampleThreePeers sampleTieAnswer =
      some ({ sampleThreePeers with chain := sampleTransferred.chain }, true) ∧
    ValidChain toyCrypto sampleOtherChain = some true ∧
    sampleOtherChain ≠ sampleTransferred.chain ∧
    ∃ (pre : List String) (n : String) (post : List String) (r : Response Int),
      sampleThreePeers.neighbours = pre ++ n :: post ∧ sampleTieAnswer n = some r ∧
      Qualifies toyCrypto sampleThreePeers.chain.length r ∧
      (∀ x ∈ pre, ∀ r1 : Response Int, sampleTieAnswer x = some r1 →
        Qualifies toyCrypto sampleThreePeers.chain.length r1 →
        r1.chain.length < r.chain.length) ∧
      (∀ x ∈ post, ∀ r1 : Response Int, sampleTieAnswer x = some r1 →
        Qualifies toyCrypto sampleThreePeers.chain.length r1 →
        r1.chain.length ≤ r.chain.length) ∧
      ResolveConflicts toyCrypto sampleThreePeers sampleTieAnswer =
        some ({ sampleThreePeers with chain := r.chain }, true) :=
  ⟨by decide, by decide, by decide,
   ResolveConflicts_adopts_first_longest toyCrypto sampleThreePeers sampleTieAnswer
     (fun n _ => ⟨_, rfl⟩)
     ⟨"192.168.0.3:5000", by decide,
      { statusCode := 200, chain := sampleTransferred.chain }, by decide,
      by decide, by decide, by decide⟩⟩

/-- Every chain on which the loop of `ResolveConflicts` invokes `ValidChain`
has at least one block. -/
theorem validChainArgs_nonempty (E : Crypto PK Sig V)
    (httpGet : String → Option (Response V)) (neighbours : List String) :
    ∀ (acc : Option (List (Block V)) × Nat),
      ∀ chain ∈ validChainArgs E httpGet neighbours acc, 1 ≤ chain.length := by
  induction neighbours with
  | nil =>
    intro acc chain hmem
    simp [validChainArgs] at hmem
  | cons n rest ih =>
    intro acc chain hmem
    rw [validChainArgs, List.mem_append] at hmem
    rcases hmem with hnow | hlater
    · cases hget : httpGet n with
      | none => simp [hget, validChainArg] at hnow
      | some r =>
        by_cases hguard : r.statusCode = 200 ∧ r.chain.length > acc.2
        · have hchain : chain = r.chain := by
            simpa [hget, validChainArg, hguard, eq_comm] using hnow
          rw [hchain]
          omega
        · simp [hget, validChainArg, hguard] at hnow
    · cases hturn : resolveStep E acc (httpGet n) with
      | none => simp [hturn] at hlater
      | some acc1 =>
        rw [hturn] at hlater
        exact ih acc1 chain hlater

/-- C20: `ValidChain` fails on an empty chain (the index panic of `chain[0]`),
and inside `ResolveConflicts` that failure is unreachable: whatever the local
chain and the answers of the neighbours, every chain on which `ValidChain` is
invoked has length at least 1, the guard `len(chain) > maxLength` being tested
first, so that a turn of the loop on an answer always returns. -/
theorem ValidChain_guarded (E : Crypto PK Sig V) (bc : Blockchain V)
    (httpGet : String → Option (Response V)) :
    ValidChain E ([] : List (Block V)) = none ∧
    (∀ chain ∈ validChainArgs E httpGet bc.neighbours (none, bc.chain.length),
      1 ≤ chain.length) ∧
    (∀ (acc : Option (List (Block V)) × Nat) (r : Response V),
      ∃ acc1, resolveStep E acc (some r) = some acc1) ∧
    ((∀ n ∈ bc.neighbours, ∃ r : Response V, httpGet n = some r) →
      ∃ (bc1 : Blockchain V) (r : Bool), ResolveConflicts E bc httpGet = some (bc1, r)) :=
  ⟨rfl, validChainArgs_nonempty E httpGet bc.neighbours (none, bc.chain.length),
   resolveStep_total E, ResolveConflicts_total E bc httpGet⟩

/-- C20 at concrete answers: answers that hold no chain lead to no call of
`ValidChain` and to the result false; with a shorter and a longer answer only
the longer chain, of three blocks, is passed to `ValidChain`. -/
theorem ValidChain_guarded_witness :
    validChainArgs toyCrypto sampleEmptyAnswer sampleMinedWithPeers.neighbours
      (none, sampleMinedWithPeers.chain.length) = [] ∧
    ResolveConflicts toyCrypto sampleMinedWithPeers sampleEmptyAnswer =
      some (sampleMinedWithPeers, false) ∧
    validChainArgs toyCrypto sampleRejectedAnswer sampleMinedWithPeers.neighbours
      (none, sampleMinedWithPeers.chain.length) =
      [sampleMined.chain ++ [NewBlock 11 0 (constDigest 0) []]] ∧
    (∀ chain ∈ validChainArgs toyCrypto sampleRejectedAnswer sampleMinedWithPeers.neighbours
      (none, sampleMinedWithPeers.chain.length), 1 ≤ chain.length) :=
  ⟨by decide, by decide, by decide,
   (ValidChain_guarded toyCrypto sampleMinedWithPeers sampleRejectedAnswer).2.1⟩

end Resolving

/-! ## Invariants of the node -/

section Invariants

variable {PK Sig V : Type}
variable [Zero V] [One V] [Add V] [Sub V] [LT V] [DecidableRel (fun a b : V => a < b)]

/-- What a returning `AddTransaction` did: either it returned false and left
the node as it was, or it returned true and appended the transaction to the
pool. -/
theorem AddTransaction_some (E : Crypto PK Sig V) (bc bc1 : Blockchain V)
    (sender recipient : String) (value : V) (pk : Option PK) (s : Option Sig) (r : Bool)
    (h : AddTransaction E bc sender recipient value pk s = some (bc1, r)) :
    (r = false ∧ bc1 = bc) ∨
    (r = true ∧ bc1 = { bc with
      transactionPool := bc.transactionPool ++ [NewTransaction sender recipient value] }) := by
  by_cases hsender : sender = cMINING_SENDER
  · simp only [AddTransaction, hsender, if_true, Option.some.injEq, Prod.mk.injEq] at h
    exact Or.inr ⟨h.2.symm, by rw [← h.1, hsender]⟩
  · cases pk with
    | none => simp [AddTransaction, hsender] at h
    | some pk =>
      cases s with
      | none => simp [AddTransaction, hsender] at h
      | some s =>
        by_cases hverify : verifyTransactionSignature E pk s
            (NewTransaction sender recipient value) = true
        · by_cases hlt : CalculateTotalAmount bc sender < value
          · simp only [AddTransaction, hsender, hverify, hlt, if_true, if_false,
              Option.some.injEq, Prod.mk.injEq] at h
            exact Or.inl ⟨h.2.symm, h.1.symm⟩
          · simp only [AddTransaction, hsender, hverify, hlt, if_true, if_false,
              Option.some.injEq, Prod.mk.injEq] at h
            exact Or.inr ⟨h.2.symm, h.1.symm⟩
        · have hfails : verifyTransactionSignature E pk s
              (NewTransaction sender recipient value) = false := by
            simpa using hverify
          simp only [AddTransaction, hsender, hfails, Bool.false_eq_true, if_false,
            Option.some.injEq, Prod.mk.injEq] at h
          exact Or.inl ⟨h.2.symm, h.1.symm⟩

/-- C7 as stated fails for the sender `"THE BLOCK CHAIN"`: a transaction from
that sender whose signature does not verify is admitted, `AddTransaction`
returns true and the pool grows. -/
theorem signature_admission_counterexample :
    toyCrypto.ecdsaVerify 4 (toyCrypto.txDigest (NewTransaction cMINING_SENDER "B" 1000)) 0
      = false ∧
    AddTransaction toyCrypto sampleFresh cMINING_SENDER "B" 1000 (some 4) (some 0) =
      some ({ sampleFresh with
        transactionPool := [NewTransaction cMINING_SENDER "B" 1000] }, true) :=
  ⟨by decide, by decide⟩

/-- C7, amended: for every node state and every sender other than the coin-base
sentinel, recipient, value, public key and signature such that the signature
does not verify under the key over the digest of the transaction,
`AddTransaction` returns false and leaves the node, its pool included, as it
was. -/
theorem AddTransaction_rejects_bad_signature (E : Crypto PK Sig V) (bc : Blockchain V)
    (sender recipient : String) (value : V) (pk : PK) (s : Sig)
    (hsender : sender ≠ cMINING_SENDER)
    (hbad : E.ecdsaVerify pk (E.txDigest (NewTransaction sender recipient value)) s = false) :
    AddTransaction E bc sender recipient value (some pk) (some s) = some (bc, false) := by
  simp [AddTransaction, hsender, verifyTransactionSignature, hbad]

/-- C7, amended, at a concrete call: sender `"A"` with key 4 and the signature
0, which key 4 does not accept. -/
theorem AddTransaction_rejects_bad_signature_witness :
    AddTransaction toyCrypto sampleMined "A" "B" 1 (some 4) (some 0) =
      some (sampleMined, false) :=
  AddTransaction_rejects_bad_signature toyCrypto sampleMined "A" "B" 1 4 0
    (by decide) (by decide)

/-- C8: for a correctly signed transaction whose sender is not the coin-base
sentinel, `AddTransaction` returns false and leaves the node, its pool
included, as it was when `CalculateTotalAmount(sender) < value`, and otherwise
(so whenever `CalculateTotalAmount(sender) >= value`) returns true and appends
exactly that transaction at the end of the pool. -/
theorem AddTransaction_balance_check (E : Crypto PK Sig V) (bc : Blockchain V)
    (sender recipient : String) (value : V) (pk : PK) (s : Sig)
    (hsender : sender ≠ cMINING_SENDER)
    (hsigned : E.ecdsaVerify pk (E.txDigest (NewTransaction sender recipient value)) s = true) :
    (CalculateTotalAmount bc sender < value →
      AddTransaction E bc sender recipient value (some pk) (some s) = some (bc, false)) ∧
    (¬ CalculateTotalAmount bc sender < value →
      AddTransaction E bc sender recipient value (some pk) (some s) =
        some ({ bc with transactionPool :=
          bc.transactionPool ++ [NewTransaction sender recipient value] }, true)) := by
  constructor
  · intro hlt
    simp [AddTransaction, hsender, verifyTransactionSignature, hsigned, hlt]
  · intro hge
    simp [AddTransaction, hsender, verifyTransactionSignature, hsigned, hge]

/-- C8 at concrete calls: on the node that mined once, where the balance of
`"A"` is 1, the signed transfer of 2 is refused and the signed transfer of 1 is
appended to the pool. -/
theorem AddTransaction_balance_check_witness :
    CalculateTotalAmount sampleMined "A" = 1 ∧
    AddTransaction toyCrypto sampleMined "A" "B" 2 (some 4) (some 5) =
      some (sampleMined, false) ∧
    AddTransaction toyCrypto sampleMined "A" "B" 1 (some 4) (some 5) =
      some ({ sampleMined with transactionPool := [NewTransaction "A" "B" 1] }, true) :=
  ⟨by decide,
   (AddTransaction_balance_check toyCrypto sampleMined "A" "B" 2 4 5 (by decide)
      (by decide)).1 (by decide),
   (AddTransaction_balance_check toyCrypto sampleMined "A" "B" 1 4 5 (by decide)
      (by decide)).2 (by decide)⟩

/-- C14: when the nonce search on the pool `P` followed by the reward
transaction finds a nonce, `Mining` returns true, leaves the chain `C` with
exactly one block appended, stamped with the clock reading, whose transactions
are `P` followed by the reward transaction `("THE BLOCK CHAIN", A, 1.0)`, whose
`previous_hash` is the hash of the last block of `C` and whose nonce is the
result of the search, and leaves the pool empty. On a fresh node of address
`"A"` the chain then has two blocks, the second holding the reward transaction
alone, and the balance of `"A"` is `0 + 1.0`, that is `1.0`. -/
theorem Mining_seals (E : Crypto PK Sig V) :
    (∀ (bc : Blockchain V) (now : Int) (fuel : Nat) (nonce : Int),
      proofOfWork E { bc with transactionPool := bc.transactionPool ++
        [NewTransaction cMINING_SENDER bc.blockChainAddress cMINING_REWARD] } fuel
        = some nonce →
      Mining E bc now fuel = some ({ bc with
        chain := bc.chain ++ [NewBlock now nonce (E.Hash (lastBlock bc))
          (bc.transactionPool ++
            [NewTransaction cMINING_SENDER bc.blockChainAddress cMINING_REWARD])],
        transactionPool := [] }, true)) ∧
    (∀ (port : Nat) (now0 : Int) (fuel0 : Nat) (bc0 : Blockchain V) (now : Int)
      (fuel : Nat) (nonce : Int),
      NewBlockchain E "A" port now0 fuel0 = some bc0 →
      proofOfWork E { bc0 with transactionPool := bc0.transactionPool ++
        [NewTransaction cMINING_SENDER bc0.blockChainAddress cMINING_REWARD] } fuel
        = some nonce →
      ∃ bc1 : Blockchain V, Mining E bc0 now fuel = some (bc1, true) ∧
        bc1.chain.length = 2 ∧
        bc1.chain.map (fun b => b.transactions) =
          [[], [NewTransaction cMINING_SENDER "A" cMINING_REWARD]] ∧
        bc1.transactionPool = [] ∧
        ((0 : V) + 1 = 1 → CalculateTotalAmount bc1 "A" = 1)) := by
  have hgeneral : ∀ (bc : Blockchain V) (now : Int) (fuel : Nat) (nonce : Int),
      proofOfWork E { bc with transactionPool := bc.transactionPool ++
        [NewTransaction cMINING_SENDER bc.blockChainAddress cMINING_REWARD] } fuel
        = some nonce →
      Mining E bc now fuel = some ({ bc with
        chain := bc.chain ++ [NewBlock now nonce (E.Hash (lastBlock bc))
          (bc.transactionPool ++
            [NewTransaction cMINING_SENDER bc.blockChainAddress cMINING_REWARD])],
        transactionPool := [] }, true) := by
    intro bc now fuel nonce hpow
    have hcreate := createBlock_of_proofOfWork E _ now fuel nonce hpow
    simp only [Mining, AddTransaction, if_true, hcreate]
    rfl
  refine ⟨hgeneral, ?_⟩
  intro port now0 fuel0 bc0 now fuel nonce hnew hpow
  obtain ⟨nonce0, _, hbc0⟩ := NewBlockchain_some E "A" port now0 fuel0 bc0 hnew
  refine ⟨_, hgeneral bc0 now fuel nonce hpow, ?_, ?_, rfl, ?_⟩
  · rw [hbc0]
    rfl
  · rw [hbc0]
    rfl
  · intro h01
    have hne : ¬ cMINING_SENDER = "A" := by decide
    rw [hbc0]
    simp [CalculateTotalAmount, NewBlock, AssembleBlock, NewTransaction, hne,
      cMINING_REWARD, h01]

/-- C14 at a concrete run: `Mining` at clock reading 9 on the fresh node of
address `"A"`, where the search returns the nonce 2. -/
theorem Mining_seals_witness :
    NewBlockchain toyCrypto "A" 5000 7 1 = some sampleFresh ∧
    proofOfWork toyCrypto sampleRewarded 3 = some 2 ∧
    Mining toyCrypto sampleFresh 9 3 = some (sampleMined, true) ∧
    ∃ bc1 : Blockchain Int, Mining toyCrypto sampleFresh 9 3 = some (bc1, true) ∧
      bc1.chain.length = 2 ∧
      bc1.chain.map (fun b => b.transactions) =
        [[], [NewTransaction cMINING_SENDER "A" cMINING_REWARD]] ∧
      bc1.transactionPool = [] ∧
      ((0 : Int) + 1 = 1 → CalculateTotalAmount bc1 "A" = 1) :=
  ⟨by decide, by decide, by decide,
   (Mining_seals toyCrypto).2 5000 7 1 sampleFresh 9 3 2 (by decide) (by decide)⟩

/-- C19: the chain never gets shorter. `Mining` returns when its nonce search
returns, and then, as whenever it returns, the chain is the former chain with
exactly one block appended, so its length grows by exactly 1. `AddTransaction`
returns on every key and signature that are not `nil`, and whenever it returns
the chain is as it was; so it is after `ClearTransactionPool`.
`ResolveConflicts` returns when every neighbour answers, and whenever it
returns it returns true exactly when it replaced the chain, the new chain being
strictly longer, and otherwise leaves the chain as it was. -/
theorem chain_never_shrinks (E : Crypto PK Sig V) (bc : Blockchain V) :
    (∀ (now : Int) (fuel : Nat) (nonce : Int),
      proofOfWork E { bc with transactionPool := bc.transactionPool ++
        [NewTransaction cMINING_SENDER bc.blockChainAddress cMINING_REWARD] } fuel
        = some nonce →
      ∃ bc1 : Blockchain V, Mining E bc now fuel = some (bc1, true) ∧
        bc1.chain.length = bc.chain.length + 1 ∧
        ∃ b : Block V, bc1.chain = bc.chain ++ [b]) ∧
    (∀ (now : Int) (fuel : Nat) (bc1 : Blockchain V) (r : Bool),
      Mining E bc now fuel = some (bc1, r) →
      bc1.chain.length = bc.chain.length + 1 ∧ ∃ b : Block V, bc1.chain = bc.chain ++ [b]) ∧
    (∀ (sender recipient : String) (value : V) (pk : PK) (s : Sig),
      ∃ (bc1 : Blockchain V) (r : Bool),
        AddTransaction E bc sender recipient value (some pk) (some s) = some (bc1, r) ∧
        bc1.chain = bc.chain) ∧
    (∀ (sender recipient : String) (value : V) (pk : Option PK) (s : Option Sig)
      (bc1 : Blockchain V) (r : Bool),
      AddTransaction E bc sender recipient value pk s = some (bc1, r) →
      bc1.chain = bc.chain) ∧
    (ClearTransactionPool bc).chain = bc.chain ∧
    (∀ (httpGet : String → Option (Response V)),
      (∀ n ∈ bc.neighbours, ∃ r : Response V, httpGet n = some r) →
      ∃ (bc1 : Blockchain V) (r : Bool), ResolveConflicts E bc httpGet = some (bc1, r) ∧
        (r = true ↔ bc1.chain ≠ bc.chain) ∧
        (r = true → bc.chain.length < bc1.chain.length) ∧
        (r = false → bc1.chain = bc.chain)) ∧
    (∀ (httpGet : String → Option (Response V)) (bc1 : Blockchain V) (r : Bool),
      ResolveConflicts E bc httpGet = some (bc1, r) →
      (r = true ↔ bc1.chain ≠ bc.chain) ∧
      (r = true → bc.chain.length < bc1.chain.length) ∧
      (r = false → bc1.chain = bc.chain)) := by
  have hmining : ∀ (now : Int) (fuel : Nat) (bc1 : Blockchain V) (r : Bool),
      Mining E bc now fuel = some (bc1, r) →
      bc1.chain.length = bc.chain.length + 1 ∧
        ∃ b : Block V, bc1.chain = bc.chain ++ [b] := by
    intro now fuel bc1 r h
    obtain ⟨_, nonce, _, hbc1⟩ := Mining_some E bc bc1 now fuel r h
    rw [hbc1]
    exact ⟨by simp, _, rfl⟩
  have hadd : ∀ (sender recipient : String) (value : V) (pk : Option PK) (s : Option Sig)
      (bc1 : Blockchain V) (r : Bool),
      AddTransaction E bc sender recipient value pk s = some (bc1, r) →
      bc1.chain = bc.chain := by
    intro sender recipient value pk s bc1 r h
    rcases AddTransaction_some E bc bc1 sender recipient value pk s r h with
      ⟨_, hbc1⟩ | ⟨_, hbc1⟩
    · rw [hbc1]
    · rw [hbc1]
  have hresolve : ∀ (httpGet : String → Option (Response V)) (bc1 : Blockchain V)
      (r : Bool), ResolveConflicts E bc httpGet = some (bc1, r) →
      (r = true ↔ bc1.chain ≠ bc.chain) ∧
      (r = true → bc.chain.length < bc1.chain.length) ∧
      (r = false → bc1.chain = bc.chain) := by
    intro httpGet bc1 r h
    rcases ResolveConflicts_some E bc bc1 httpGet r h with
      ⟨hr, hbc1⟩ | ⟨hr, longestChain, hbc1, _, hlen⟩
    · rw [hr, hbc1]
      simp
    · have hchain : bc1.chain = longestChain := by rw [hbc1]
      have hne : bc1.chain ≠ bc.chain := by
        intro heq
        rw [hchain] at heq
        rw [heq] at hlen
        exact lt_irrefl _ hlen
      rw [hr, hchain]
      rw [hchain] at hne
      exact ⟨⟨fun _ => hne, fun _ => rfl⟩, fun _ => hlen, fun hfalse => by simp at hfalse⟩
  refine ⟨?_, hmining, ?_, hadd, rfl, ?_, hresolve⟩
  · intro now fuel nonce hpow
    have hmine := Mining_of_proofOfWork E bc now fuel nonce hpow
    obtain ⟨hlen, hb⟩ := hmining now fuel _ true hmine
    exact ⟨_, hmine, hlen, hb⟩
  · intro sender recipient value pk s
    have hsome : AddTransaction E bc sender recipient value (some pk) (some s) ≠ none := by
      unfold AddTransaction
      by_cases hsender : sender = cMINING_SENDER
      · simp [hsender]
      · by_cases hverify : verifyTransactionSignature E pk s
            (NewTransaction sender recipient value) = true
        · by_cases hlt : CalculateTotalAmount bc sender < value
          · simp [hsender, hverify, hlt]
          · simp [hsender, hverify, hlt]
        · simp [hsender, hverify]
    obtain ⟨res, hres⟩ := Option.ne_none_iff_exists'.1 hsome
    obtain ⟨bc1, r⟩ := res
    exact ⟨bc1, r, hres, hadd sender recipient value (some pk) (some s) bc1 r hres⟩
  · intro httpGet hresp
    obtain ⟨bc1, r, h⟩ := ResolveConflicts_total E bc httpGet hresp
    exact ⟨bc1, r, h, hresolve httpGet bc1 r h⟩

/-- C19 at concrete calls: on the fresh node the nonce search returns 2 and
`Mining` returns with one block more; a signed transfer is refused there with
the chain kept; with one neighbour answering, `ResolveConflicts` returns. -/
theorem chain_never_shrinks_witness :
    (∃ bc1 : Blockchain Int, Mining toyCrypto sampleFresh 9 3 = some (bc1, true) ∧
      bc1.chain.length = sampleFresh.chain.length + 1 ∧
      ∃ b : Block Int, bc1.chain = sampleFresh.chain ++ [b]) ∧
    (∃ (bc1 : Blockchain Int) (r : Bool),
      AddTransaction toyCrypto sampleFresh "A" "B" 1 (some 4) (some 5) = some (bc1, r) ∧
      bc1.chain = sampleFresh.chain) ∧
    (∃ (bc1 : Blockchain Int) (r : Bool),
      ResolveConflicts toyCrypto sampleFreshWithPeer sampleLongerAnswer = some (bc1, r) ∧
      (r = true ↔ bc1.chain ≠ sampleFreshWithPeer.chain) ∧
      (r = true → sampleFreshWithPeer.chain.length < bc1.chain.length) ∧
      (r = false → bc1.chain = sampleFreshWithPeer.chain)) ∧
    ResolveConflicts toyCrypto sampleFreshWithPeer sampleLongerAnswer =
      some ({ sampleFreshWithPeer with chain := sampleMined.chain }, true) :=
  ⟨(chain_never_shrinks toyCrypto sampleFresh).1 9 3 2 (by decide),
   (chain_never_shrinks toyCrypto sampleFresh).2.2.1 "A" "B" 1 4 5,
   (chain_never_shrinks toyCrypto sampleFreshWithPeer).2.2.2.2.2.1 sampleLongerAnswer
     (fun _ _ => ⟨_, rfl⟩),
   by decide⟩

/-- A property of the node that every returning call keeps holds after every
sequence of returning calls. -/
theorem run_preserves (E : Crypto PK Sig V) (P : Blockchain V → Prop)
    (hop : ∀ (op : Op PK Sig V) (bc bc1 : Blockchain V),
      P bc → op.apply E bc = some bc1 → P bc1)
    (ops : List (Op PK Sig V)) :
    ∀ bc bc1 : Blockchain V, P bc → run E ops bc = some bc1 → P bc1 := by
  induction ops with
  | nil =>
    intro bc bc1 hP h
    simp only [run, Option.some.injEq] at h
    exact h ▸ hP
  | cons op rest ih =>
    intro bc bc1 hP h
    rw [run] at h
    split at h
    · simp at h
    · next bc2 hcall => exact ih bc2 bc1 (hop op bc bc2 hP hcall) h

/-- Every returning call keeps the chain acceptable to `ValidChain`. -/
theorem apply_ValidChain (E : Crypto PK Sig V) (op : Op PK Sig V) (bc bc1 : Blockchain V)
    (hvalid : ValidChain E bc.chain = some true) (h : op.apply E bc = some bc1) :
    ValidChain E bc1.chain = some true := by
  cases op with
  | mining now fuel =>
    obtain ⟨r, hmine⟩ := map_fst_some (Mining E bc now fuel) bc1 h
    exact Mining_ValidChain E bc bc1 now fuel r hmine hvalid
  | addTransaction sender recipient value pk s =>
    obtain ⟨r, hadd⟩ := map_fst_some (AddTransaction E bc sender recipient value pk s) bc1 h
    rcases AddTransaction_some E bc bc1 sender recipient value pk s r hadd with
      ⟨_, hbc1⟩ | ⟨_, hbc1⟩
    · rw [hbc1]; exact hvalid
    · rw [hbc1]; exact hvalid
  | clearTransactionPool =>
    simp only [Op.apply, Option.some.injEq] at h
    rw [← h]; exact hvalid
  | resolveConflicts httpGet =>
    obtain ⟨r, hres⟩ := map_fst_some (ResolveConflicts E bc httpGet) bc1 h
    rcases ResolveConflicts_some E bc bc1 httpGet r hres with
      ⟨_, hbc1⟩ | ⟨_, longestChain, hbc1, hlong, _⟩
    · rw [hbc1]; exact hvalid
    · rw [hbc1]; exact hlong
  | setNeighbors found =>
    simp only [Op.apply, Option.some.injEq] at h
    rw [← h]; exact hvalid

/-- In every reachable state `ValidChain` accepts the chain of the node. -/
theorem Reachable_ValidChain (E : Crypto PK Sig V) (bc : Blockchain V)
    (h : Reachable E bc) : ValidChain E bc.chain = some true := by
  obtain ⟨addr, port, now, fuel, ops, bc0, hnew, hrun⟩ := h
  obtain ⟨nonce, _, hbc0⟩ := NewBlockchain_some E addr port now fuel bc0 hnew
  refine run_preserves E (fun b => ValidChain E b.chain = some true)
    (fun op b b1 hb hcall => apply_ValidChain E op b b1 hb hcall) ops bc0 bc ?_ hrun
  rw [hbc0]
  rfl

/-- C2: chain linkage is an invariant: in every state reachable from
`NewBlockchain` by `Mining`, `AddTransaction`, `ClearTransactionPool`,
`ResolveConflicts` with arbitrary answers of the neighbours (and changes of the
neighbour list), every block at an index `i ≥ 1` has `previous_hash` equal to
the hash of block `i - 1`. -/
theorem chain_linkage_invariant (E : Crypto PK Sig V) (bc : Blockchain V)
    (h : Reachable E bc) :
    ∀ (i : Nat) (_ : 1 ≤ i) (hi : i < bc.chain.length),
      bc.chain[i].previousHash = E.Hash bc.chain[i - 1] := by
  intro i h1 hi
  exact (((ValidChain_true_iff E bc.chain).1 (Reachable_ValidChain E bc h)).2 i h1 hi).1

/-- C2 at a concrete state: the node after one `Mining`. -/
theorem chain_linkage_invariant_witness :
    Reachable toyCrypto sampleMined ∧
    ∀ (i : Nat) (_ : 1 ≤ i) (hi : i < sampleMined.chain.length),
      sampleMined.chain[i].previousHash = toyCrypto.Hash sampleMined.chain[i - 1] :=
  ⟨⟨"A", 5000, 7, 1, [Op.mining 9 3], sampleFresh, by decide, by decide⟩,
   chain_linkage_invariant toyCrypto sampleMined
     ⟨"A", 5000, 7, 1, [Op.mining 9 3], sampleFresh, by decide, by decide⟩⟩

/-- C3 as stated fails: after `NewBlockchain` and one `Mining` the block at
index 1, hashed as stored with its timestamp 9, has a hexadecimal hash that
does not begin with three zeros, although its nonce was found by the search. -/
theorem stored_hash_proof_counterexample :
    Reachable toyCrypto sampleMined ∧
    ∃ (i : Nat) (_ : 1 ≤ i) (hi : i < sampleMined.chain.length),
      (hexString (toyCrypto.Hash sampleMined.chain[i])).take MINING_DIFFICULTY ≠
        List.replicate MINING_DIFFICULTY '0' :=
  ⟨⟨"A", 5000, 7, 1, [Op.mining 9 3], sampleFresh, by decide, by decide⟩,
   1, by decide, by decide, by decide⟩

/-- C3, amended: in every reachable state, every block at an index `i ≥ 1`
passes `validProof` at `MINING_DIFFICULTY`: the hexadecimal hash of the block
assembled from its nonce, `previous_hash` and transactions with timestamp 0
begins with three zeros. -/
theorem proof_validity_invariant (E : Crypto PK Sig V) (bc : Blockchain V)
    (h : Reachable E bc) :
    ∀ (i : Nat) (_ : 1 ≤ i) (hi : i < bc.chain.length),
      validProof E bc.chain[i].nonce bc.chain[i].previousHash bc.chain[i].transactions
        MINING_DIFFICULTY = true ∧
      (hexString (E.Hash (AssembleBlock 0 bc.chain[i].nonce bc.chain[i].previousHash
        bc.chain[i].transactions))).take 3 = ['0', '0', '0'] := by
  intro i h1 hi
  have hproof := (((ValidChain_true_iff E bc.chain).1 (Reachable_ValidChain E bc h)).2 i h1 hi).2
  refine ⟨hproof, ?_⟩
  simpa [validProof, MINING_DIFFICULTY, List.replicate] using hproof

/-- C3, amended, at a concrete state: the node after one `Mining`. -/
theorem proof_validity_invariant_witness :
    Reachable toyCrypto sampleMined ∧
    ∀ (i : Nat) (_ : 1 ≤ i) (hi : i < sampleMined.chain.length),
      validProof toyCrypto sampleMined.chain[i].nonce sampleMined.chain[i].previousHash
        sampleMined.chain[i].transactions MINING_DIFFICULTY = true ∧
      (hexString (toyCrypto.Hash (AssembleBlock 0 sampleMined.chain[i].nonce
        sampleMined.chain[i].previousHash sampleMined.chain[i].transactions))).take 3 =
        ['0', '0', '0'] :=
  ⟨⟨"A", 5000, 7, 1, [Op.mining 9 3], sampleFresh, by decide, by decide⟩,
   proof_validity_invariant toyCrypto sampleMined
     ⟨"A", 5000, 7, 1, [Op.mining 9 3], sampleFresh, by decide, by decide⟩⟩

/-- Each returning `Mining` of a run of `Mining` calls lengthens the chain by one. -/
theorem run_mining_length (E : Crypto PK Sig V) (mines : List (Int × Nat)) :
    ∀ bc0 bc : Blockchain V,
      run E (mines.map (fun m => Op.mining m.1 m.2)) bc0 = some bc →
      bc.chain.length = bc0.chain.length + mines.length ∧ bc.neighbours = bc0.neighbours := by
  induction mines with
  | nil =>
    intro bc0 bc h
    simp only [List.map_nil, run, Option.some.injEq] at h
    simp [h]
  | cons m rest ih =>
    intro bc0 bc h
    rw [List.map_cons, run] at h
    split at h
    · simp at h
    · next bc1 hcall =>
      obtain ⟨r, hmine⟩ := map_fst_some (Mining E bc0 m.1 m.2) bc1 hcall
      obtain ⟨_, nonce, _, hbc1⟩ := Mining_some E bc0 bc1 m.1 m.2 r hmine
      obtain ⟨hlen, hnb⟩ := ih bc1 bc h
      have hlen1 : bc1.chain.length = bc0.chain.length + 1 := by
        rw [hbc1]
        simp
      have hnb1 : bc1.neighbours = bc0.neighbours := by rw [hbc1]
      refine ⟨?_, hnb.trans hnb1⟩
      rw [hlen, hlen1, List.length_cons]
      omega

/-- C4: `N` calls of `Mining` on a freshly constructed node, which has no
neighbours and on which no transaction is submitted, yield a chain of length
`N + 1` that `ValidChain` accepts, when each nonce search finds a nonce: the
run returns when each search, on the node reached by then, returns; it returns
with enough nonce tests when every search has a solution; and whenever it
returns, every block from index 1 on links to the hash of its predecessor and
passes `validProof` at `MINING_DIFFICULTY`. -/
theorem Mining_repeated_valid (E : Crypto PK Sig V) (addr : String) (port : Nat)
    (now : Int) :
    (∀ (fuel : Nat) (bc0 : Blockchain V) (mines : List (Int × Nat)),
      NewBlockchain E addr port now fuel = some bc0 →
      (∀ (pre : List (Int × Nat)) (m : Int × Nat) (post : List (Int × Nat))
        (bck : Blockchain V), mines = pre ++ m :: post →
        run E (pre.map (fun m => Op.mining m.1 m.2)) bc0 = some bck →
        ∃ nonce : Int, proofOfWork E { bck with transactionPool := bck.transactionPool ++
          [NewTransaction cMINING_SENDER bck.blockChainAddress cMINING_REWARD] } m.2
          = some nonce) →
      ∃ bc : Blockchain V, run E (mines.map (fun m => Op.mining m.1 m.2)) bc0 = some bc ∧
        bc.chain.length = mines.length + 1 ∧ ValidChain E bc.chain = some true) ∧
    ((∀ (previousHash : Digest) (transactions : List (Transaction V)),
        ∃ m : Int, 0 ≤ m ∧ m < 2 ^ 63 ∧
          validProof E m previousHash transactions MINING_DIFFICULTY = true) →
      ∀ nows : List Int, ∃ (fuel : Nat) (bc0 : Blockchain V) (fuels : List Nat)
        (bc : Blockchain V), fuels.length = nows.length ∧
        NewBlockchain E addr port now fuel = some bc0 ∧
        run E ((nows.zip fuels).map (fun m => Op.mining m.1 m.2)) bc0 = some bc ∧
        bc.chain.length = nows.length + 1 ∧ ValidChain E bc.chain = some true) ∧
    (∀ (fuel : Nat) (N : Nat) (mines : List (Int × Nat)) (bc0 bc : Blockchain V),
      mines.length = N →
      NewBlockchain E addr port now fuel = some bc0 →
      run E (mines.map (fun m => Op.mining m.1 m.2)) bc0 = some bc →
      bc0.neighbours = [] ∧ bc0.transactionPool = [] ∧
      bc.chain.length = N + 1 ∧ ValidChain E bc.chain = some true ∧
      ∀ (i : Nat) (_ : 1 ≤ i) (hi : i < bc.chain.length),
        bc.chain[i].previousHash = E.Hash bc.chain[i - 1] ∧
        validProof E bc.chain[i].nonce bc.chain[i].previousHash bc.chain[i].transactions
          MINING_DIFFICULTY = true) := by
  have hprops : ∀ (fuel : Nat) (N : Nat) (mines : List (Int × Nat)) (bc0 bc : Blockchain V),
      mines.length = N →
      NewBlockchain E addr port now fuel = some bc0 →
      run E (mines.map (fun m => Op.mining m.1 m.2)) bc0 = some bc →
      bc0.neighbours = [] ∧ bc0.transactionPool = [] ∧
      bc.chain.length = N + 1 ∧ ValidChain E bc.chain = some true ∧
      ∀ (i : Nat) (_ : 1 ≤ i) (hi : i < bc.chain.length),
        bc.chain[i].previousHash = E.Hash bc.chain[i - 1] ∧
        validProof E bc.chain[i].nonce bc.chain[i].previousHash bc.chain[i].transactions
          MINING_DIFFICULTY = true := by
    intro fuel N mines bc0 bc hN hnew hrun
    have hvalid : ValidChain E bc.chain = some true :=
      Reachable_ValidChain E bc ⟨addr, port, now, fuel, _, bc0, hnew, hrun⟩
    obtain ⟨nonce, _, hbc0⟩ := NewBlockchain_some E addr port now fuel bc0 hnew
    obtain ⟨hlen, _⟩ := run_mining_length E mines bc0 bc hrun
    refine ⟨by rw [hbc0], by rw [hbc0], ?_, hvalid,
      ((ValidChain_true_iff E bc.chain).1 hvalid).2⟩
    rw [hlen, hbc0, hN]
    simp only [List.length_singleton]
    omega
  refine ⟨?_, ?_, hprops⟩
  · intro fuel bc0 mines hnew hsearch
    obtain ⟨bc, hrun⟩ := run_mining_of_searches E mines bc0 hsearch
    obtain ⟨_, _, hlen, hvalid, _⟩ := hprops fuel mines.length mines bc0 bc rfl hnew hrun
    exact ⟨bc, hrun, hlen, hvalid⟩
  · intro hfind nows
    obtain ⟨fuel, bc0, hnew⟩ := NewBlockchain_returns E addr port now (hfind _ _)
    obtain ⟨fuels, bc, hlen, hrun⟩ := run_mining_returns E hfind nows bc0
    have hzip : (nows.zip fuels).length = nows.length := by
      rw [List.length_zip, hlen, Nat.min_self]
    obtain ⟨_, _, hchain, hvalid, _⟩ :=
      hprops fuel (nows.zip fuels).length (nows.zip fuels) bc0 bc rfl hnew hrun
    exact ⟨fuel, bc0, fuels, bc, hlen, hnew, hrun, by rw [hchain, hzip], hvalid⟩

/-- C4 at a concrete run: on the fresh node of address `"A"` the nonce searches
of two `Mining` calls return, so the run returns, with a chain of three blocks
that `ValidChain` accepts. -/
theorem Mining_repeated_valid_witness :
    NewBlockchain toyCrypto "A" 5000 7 1 = some sampleFresh ∧
    ∃ bc : Blockchain Int,
      run toyCrypto ([(9, 3), (11, 3)].map (fun m => Op.mining m.1 m.2)) sampleFresh
        = some bc ∧
      bc.chain.length = [((9 : Int), 3), (11, 3)].length + 1 ∧
      ValidChain toyCrypto bc.chain = some true :=
  ⟨by decide,
   (Mining_repeated_valid toyCrypto "A" 5000 7).1 1 sampleFresh [(9, 3), (11, 3)]
     (by decide)
     (by
       intro pre m post bck hsplit hpre
       rcases pre with _ | ⟨p, pre⟩
       · simp only [List.nil_append, List.cons.injEq] at hsplit
         simp only [List.map_nil, run, Option.some.injEq] at hpre
         rw [← hsplit.1, ← hpre]
         exact ⟨2, by decide⟩
       · rcases pre with _ | ⟨q, pre⟩
         · simp only [List.cons_append, List.nil_append, List.cons.injEq] at hsplit
           rw [← hsplit.1] at hpre
           have hstate : run toyCrypto ([((9 : Int), 3)].map (fun m => Op.mining m.1 m.2))
               sampleFresh = some sampleMined := by decide
           rw [hstate, Option.some.injEq] at hpre
           rw [← hsplit.2.1, ← hpre]
           exact ⟨2, by decide⟩
         · simp only [List.cons_append, List.cons.injEq] at hsplit
           have hlen := congrArg List.length hsplit.2.2
           simp only [List.length_nil, List.length_append, List.length_cons] at hlen
           omega)⟩

/-- C9 fails on the code: on the fresh node of address `"A"`, one `Mining`,
three correctly signed transfers of 1 from `"A"` to `"B"`, each admitted
against the balance 1 of the chain, and a second `Mining` leave `"A"`, which
is not the coin-base sentinel, with the balance `1 - 3 + 1 = -1`. -/
theorem balance_overdraft :
    NewBlockchain toyCrypto "A" 5000 7 1 = some sampleFresh ∧
    toyCrypto.ecdsaVerify 4 (toyCrypto.txDigest (NewTransaction "A" "B" 1)) 5 = true ∧
    (run toyCrypto overdraftCalls sampleFresh).map
      (fun bc => bc.chain.map (fun b => b.transactions)) =
      some [[], [NewTransaction cMINING_SENDER "A" 1],
        [NewTransaction "A" "B" 1, NewTransaction "A" "B" 1, NewTransaction "A" "B" 1,
         NewTransaction cMINING_SENDER "A" 1]] ∧
    (run toyCrypto overdraftCalls sampleFresh).map
      (fun bc => CalculateTotalAmount bc "A") = some (-1) ∧
    "A" ≠ cMINING_SENDER :=
  ⟨by decide, by decide, by decide, by decide, by decide⟩

/-- C10 as stated fails: after `NewBlockchain` and one `Mining` the addresses
seen are the coin-base sentinel, with balance `-1`, and `"A"`, with balance 1;
the sum is 0, not `MINING_REWARD * (2 - 1) = 1`. -/
theorem balance_conservation_counterexample :
    NewBlockchain toyCrypto "A" 5000 7 1 = some sampleFresh ∧
    run toyCrypto [Op.mining 9 3] sampleFresh = some sampleMined ∧
    seenAddresses sampleMined = [cMINING_SENDER, "A"] ∧
    sumOfBalances sampleMined (seenAddresses sampleMined) = 0 ∧
    sumOfBalances sampleMined (seenAddresses sampleMined) ≠
      cMINING_REWARD * ((sampleMined.chain.length - 1 : Nat) : Int) :=
  ⟨by decide, by decide, by decide, by decide, by decide⟩

/-- C17 as stated fails: on the node that mined once, the correctly signed
transfer of `-5` from `"A"` to `"B"` passes the balance test (`1 < -5` is
false), `AddTransaction` returns true and the pool holds a transaction of
negative value. -/
theorem admitted_value_counterexample :
    NewBlockchain toyCrypto "A" 5000 7 1 = some sampleFresh ∧
    run toyCrypto [Op.mining 9 3, Op.addTransaction "A" "B" (-5) (some 4) (some 5)]
      sampleFresh = some sampleNegative ∧
    AddTransaction toyCrypto sampleMined "A" "B" (-5) (some 4) (some 5) =
      some (sampleNegative, true) ∧
    ∃ t ∈ sampleNegative.transactionPool, t.value < 0 :=
  ⟨by decide, by decide, by decide, NewTransaction "A" "B" (-5), by decide, by decide⟩

end Invariants

/-! ## Signs of the amounts -/

section Signs

variable {PK Sig V : Type}
variable [Zero V] [One V] [Add V] [Sub V] [LT V] [DecidableRel (fun a b : V => a < b)]
variable [LE V]

/-- A property of the node that every returning call satisfying `Q` keeps holds
after every sequence of returning calls satisfying `Q`. -/
theorem run_preserves_where (E : Crypto PK Sig V) (P : Blockchain V → Prop)
    (Q : Op PK Sig V → Prop)
    (hop : ∀ (op : Op PK Sig V) (bc bc1 : Blockchain V),
      Q op → P bc → op.apply E bc = some bc1 → P bc1)
    (ops : List (Op PK Sig V)) :
    ∀ bc bc1 : Blockchain V, (∀ op ∈ ops, Q op) → P bc →
      run E ops bc = some bc1 → P bc1 := by
  induction ops with
  | nil =>
    intro bc bc1 _ hP h
    simp only [run, Option.some.injEq] at h
    exact h ▸ hP
  | cons op rest ih =>
    intro bc bc1 hQ hP h
    rw [run] at h
    split at h
    · simp at h
    · next bc2 hcall =>
      exact ih bc2 bc1 (fun o ho => hQ o (List.mem_cons_of_mem op ho))
        (hop op bc bc2 (hQ op (List.mem_cons_self op rest)) hP hcall) h

/-- A returning call that submits no negative amount keeps the values of the
pool and of the chain non-negative, the reward being non-negative. -/
theorem apply_NonnegValues (E : Crypto PK Sig V) (hreward : (0 : V) ≤ cMINING_REWARD)
    (op : Op PK Sig V) (bc bc1 : Blockchain V) (hop : op.submitsNonneg)
    (hinv : NonnegValues bc) (h : op.apply E bc = some bc1) : NonnegValues bc1 := by
  obtain ⟨hpool, hchain⟩ := hinv
  cases op with
  | mining now fuel =>
    obtain ⟨r, hmine⟩ := map_fst_some (Mining E bc now fuel) bc1 h
    obtain ⟨_, nonce, _, hbc1⟩ := Mining_some E bc bc1 now fuel r hmine
    rw [hbc1]
    refine ⟨by simp, ?_⟩
    intro b hb t ht
    rcases List.mem_append.1 hb with hold | hnew
    · exact hchain b hold t ht
    · rw [List.mem_singleton.1 hnew] at ht
      rcases List.mem_append.1 ht with hp | hc
      · exact hpool t hp
      · rw [List.mem_singleton.1 hc]
        exact hreward
  | addTransaction sender recipient value pk s =>
    obtain ⟨r, hadd⟩ := map_fst_some (AddTransaction E bc sender recipient value pk s) bc1 h
    have hvalue : (0 : V) ≤ value := hop
    rcases AddTransaction_some E bc bc1 sender recipient value pk s r hadd with
      ⟨_, hbc1⟩ | ⟨_, hbc1⟩
    · rw [hbc1]
      exact ⟨hpool, hchain⟩
    · rw [hbc1]
      refine ⟨?_, hchain⟩
      intro t ht
      rcases List.mem_append.1 ht with hold | hnew
      · exact hpool t hold
      · rw [List.mem_singleton.1 hnew]
        exact hvalue
  | clearTransactionPool => exact absurd hop (by simp [Op.submitsNonneg])
  | resolveConflicts httpGet => exact absurd hop (by simp [Op.submitsNonneg])
  | setNeighbors found => exact absurd hop (by simp [Op.submitsNonneg])

/-- C17, amended: in every state reachable from a freshly constructed node by
`Mining` calls and by `AddTransaction` calls whose value argument is not
negative, every transaction in the pool and in every block of the chain has a
value that is not negative (the reward `1.0` being non-negative). -/
theorem admitted_values_nonneg (E : Crypto PK Sig V) (hreward : (0 : V) ≤ cMINING_REWARD)
    (addr : String) (port : Nat) (now : Int) (fuel : Nat) (ops : List (Op PK Sig V))
    (bc0 bc : Blockchain V) (hops : ∀ op ∈ ops, op.submitsNonneg)
    (hnew : NewBlockchain E addr port now fuel = some bc0)
    (hrun : run E ops bc0 = some bc) :
    (∀ t ∈ bc.transactionPool, 0 ≤ t.value) ∧
    ∀ b ∈ bc.chain, ∀ t ∈ b.transactions, 0 ≤ t.value := by
  obtain ⟨nonce, _, hbc0⟩ := NewBlockchain_some E addr port now fuel bc0 hnew
  have hinv0 : NonnegValues bc0 := by
    rw [hbc0]
    refine ⟨by simp, ?_⟩
    intro b hb t ht
    rw [List.mem_singleton.1 hb] at ht
    simp [NewBlock, AssembleBlock] at ht
  exact run_preserves_where E NonnegValues Op.submitsNonneg
    (fun op b b1 hq hb hcall => apply_NonnegValues E hreward op b b1 hq hb hcall)
    ops bc0 bc hops hinv0 hrun

/-- C17, amended, at a concrete run: the fresh node of address `"A"` mines,
admits a transfer of 1 and mines again. -/
theorem admitted_values_nonneg_witness :
    run toyCrypto transferCalls sampleFresh = some sampleTransferred ∧
    ((∀ t ∈ sampleTransferred.transactionPool, 0 ≤ t.value) ∧
    ∀ b ∈ sampleTransferred.chain, ∀ t ∈ b.transactions, 0 ≤ t.value) :=
  ⟨by decide,
   admitted_values_nonneg toyCrypto (by decide) "A" 5000 7 1 transferCalls sampleFresh
     sampleTransferred
     (by
       intro op hop
       simp only [transferCalls, List.mem_cons, List.mem_singleton, List.not_mem_nil,
         or_false] at hop
       rcases hop with rfl | rfl | rfl
       · exact True.intro
       · exact (by decide : (0 : Int) ≤ 1)
       · exact True.intro)
     (by decide) (by decide)⟩

end Signs

/-! ## `CalculateTotalAmount` -/

section Balances

variable {V : Type} [Zero V] [Add V] [Sub V]

/-- The two tests of the inner loop of `CalculateTotalAmount` on one
transaction apply its adjustments in order. -/
theorem foldl_adjustments (addr : String) (t : Transaction V) (total : V) :
    (adjustments addr t).foldl
      (fun total a => if a.1 then total + a.2 else total - a.2) total =
    (if t.sender = addr then
      (if t.recipient = addr then total + t.value else total) - t.value
     else (if t.recipient = addr then total + t.value else total)) := by
  unfold adjustments
  by_cases hr : t.recipient = addr <;> by_cases hs : t.sender = addr <;> simp [hr, hs]

/-- The inner loop of `CalculateTotalAmount` applies the adjustments of the
transactions of a block in order. -/
theorem foldl_transactions_adjustments (addr : String) (txs : List (Transaction V)) :
    ∀ total : V,
      txs.foldl (fun totalAmount t =>
        let totalAmount :=
          if t.recipient = addr then totalAmount + t.value else totalAmount
        if t.sender = addr then totalAmount - t.value else totalAmount) total =
      (txs.flatMap (adjustments addr)).foldl
        (fun total a => if a.1 then total + a.2 else total - a.2) total := by
  induction txs with
  | nil =>
    intro total
    rfl
  | cons t rest ih =>
    intro total
    rw [List.foldl_cons, ih, List.flatMap_cons, List.foldl_append, foldl_adjustments]

/-- The outer loop of `CalculateTotalAmount` applies the adjustments of the
transactions of all blocks in chain order. -/
theorem foldl_blocks_adjustments (addr : String) (chain : List (Block V)) :
    ∀ total : V,
      chain.foldl (fun totalAmount b =>
        b.transactions.foldl (fun totalAmount t =>
          let totalAmount :=
            if t.recipient = addr then totalAmount + t.value else totalAmount
          if t.sender = addr then totalAmount - t.value else totalAmount)
          totalAmount) total =
      ((chain.flatMap (fun b => b.transactions)).flatMap (adjustments addr)).foldl
        (fun total a => if a.1 then total + a.2 else total - a.2) total := by
  induction chain with
  | nil =>
    intro total
    rfl
  | cons b rest ih =>
    intro total
    rw [List.foldl_cons, ih, foldl_transactions_adjustments, List.flatMap_cons,
      List.flatMap_append, List.foldl_append]

/-- C11: `CalculateTotalAmount(a)` is the sum, accumulated from 0 in chain
order over every transaction of every block, of `+value` when the recipient is
`a` and `-value` when the sender is `a` (both when both are `a`); the pending
pool does not enter the result, and the method only reads the node. -/
theorem CalculateTotalAmount_signedSum (bc : Blockchain V) (a : String) :
    CalculateTotalAmount bc a = signedSum ((allTransactions bc).flatMap (adjustments a)) ∧
    (∀ t : Transaction V, t.sender = a → t.recipient = a →
      adjustments a t = [(true, t.value), (false, t.value)]) ∧
    (∀ pool : List (Transaction V),
      CalculateTotalAmount { bc with transactionPool := pool } a =
        CalculateTotalAmount bc a) := by
  refine ⟨?_, ?_, fun _ => rfl⟩
  · rw [CalculateTotalAmount, foldl_blocks_adjustments, signedSum, allTransactions]
  · intro t hs hr
    simp [adjustments, hs, hr]

/-- C11 at a concrete node: on the node that mined twice around a transfer of 1
from `"A"` to `"B"`, the balance of `"A"` is `0 + 1 - 1 + 1`. -/
theorem CalculateTotalAmount_signedSum_witness :
    (allTransactions sampleTransferred).flatMap (adjustments "A") =
      [(true, 1), (false, 1), (true, 1)] ∧
    CalculateTotalAmount sampleTransferred "A" = 1 ∧
    CalculateTotalAmount sampleTransferred "A" =
      signedSum ((allTransactions sampleTransferred).flatMap (adjustments "A")) :=
  ⟨by decide, by decide, (CalculateTotalAmount_signedSum sampleTransferred "A").1⟩

end Balances

/-! ## Balances in exact arithmetic -/

section Conservation

variable {PK Sig V : Type}
variable [AddCommGroup V] [One V] [LT V] [DecidableRel (fun a b : V => a < b)]

/-- The inner loop of `CalculateTotalAmount` adds up the contributions of the
transactions of one block. -/
theorem foldl_transactions (addr : String) (txs : List (Transaction V)) :
    ∀ total : V,
      txs.foldl (fun totalAmount t =>
        let totalAmount :=
          if t.recipient = addr then totalAmount + t.value else totalAmount
        if t.sender = addr then totalAmount - t.value else totalAmount) total =
      total + (txs.map (txDelta addr)).sum := by
  induction txs with
  | nil =>
    intro total
    simp
  | cons t rest ih =>
    intro total
    rw [List.foldl_cons, ih, List.map_cons, List.sum_cons]
    simp only [txDelta]
    split_ifs <;> abel

/-- The outer loop of `CalculateTotalAmount` adds up the contributions of the
transactions of all blocks. -/
theorem foldl_blocks (addr : String) (chain : List (Block V)) :
    ∀ total : V,
      chain.foldl (fun totalAmount b =>
        b.transactions.foldl (fun totalAmount t =>
          let totalAmount :=
            if t.recipient = addr then totalAmount + t.value else totalAmount
          if t.sender = addr then totalAmount - t.value else totalAmount)
          totalAmount) total =
      total + ((chain.flatMap (fun b => b.transactions)).map (txDelta addr)).sum := by
  induction chain with
  | nil =>
    intro total
    simp
  | cons b rest ih =>
    intro total
    rw [List.foldl_cons, ih, foldl_transactions, List.flatMap_cons, List.map_append,
      List.sum_append, add_assoc]

/-- In exact arithmetic `CalculateTotalAmount` is the sum of the contributions
of the transactions of the chain. -/
theorem CalculateTotalAmount_eq_sum (bc : Blockchain V) (addr : String) :
    CalculateTotalAmount bc addr = ((allTransactions bc).map (txDelta addr)).sum := by
  rw [CalculateTotalAmount, foldl_blocks, zero_add, allTransactions]

/-- Summing an amount over the addresses of a duplicate-free list equal to `x`. -/
theorem sum_ite_mem (S : List String) (hS : S.Nodup) (x : String) (v : V) :
    (S.map (fun a => if x = a then v else 0)).sum = if x ∈ S then v else 0 := by
  induction S with
  | nil => simp
  | cons a rest ih =>
    rw [List.nodup_cons] at hS
    rw [List.map_cons, List.sum_cons, ih hS.2]
    by_cases hx : x = a
    · subst hx
      simp [hS.1]
    · simp [hx]

/-- Summing the contributions of one transaction over a duplicate-free list of
addresses. -/
theorem sum_txDelta (S : List String) (hS : S.Nodup) (t : Transaction V) :
    (S.map (fun a => txDelta a t)).sum =
      (if t.recipient ∈ S then t.value else 0) - (if t.sender ∈ S then t.value else 0) := by
  rw [← sum_ite_mem S hS t.recipient t.value, ← sum_ite_mem S hS t.sender t.value]
  clear hS
  induction S with
  | nil => simp
  | cons a rest ih =>
    simp only [List.map_cons, List.sum_cons]
    rw [ih]
    simp only [txDelta]
    abel

/-- In exact arithmetic the balances of a duplicate-free list of addresses sum
to what the transactions of the chain pay into the list minus what they take
out of it. -/
theorem sumOfBalances_eq (bc : Blockchain V) (S : List String) (hS : S.Nodup) :
    sumOfBalances bc S =
      ((allTransactions bc).map (fun t =>
        (if t.recipient ∈ S then t.value else 0) -
          (if t.sender ∈ S then t.value else 0))).sum := by
  have hbal : sumOfBalances bc S =
      (S.map (fun a => ((allTransactions bc).map (txDelta a)).sum)).sum := by
    rw [sumOfBalances]
    congr 1
    exact List.map_congr_left (fun a _ => CalculateTotalAmount_eq_sum bc a)
  rw [hbal]
  induction allTransactions bc with
  | nil => simp
  | cons t rest ih =>
    simp only [List.map_cons, List.sum_cons]
    rw [← ih, ← sum_txDelta S hS t]
    clear ih hbal hS
    induction S with
    | nil => simp
    | cons a more ihS =>
      simp only [List.map_cons, List.sum_cons]
      rw [ihS]
      abel

/-- A property of the node that every returning call of a given kind keeps
holds after every sequence of returning calls of that kind. -/
theorem run_preserves_on (E : Crypto PK Sig V) (P : Blockchain V → Prop)
    (Q : Op PK Sig V → Bool)
    (hop : ∀ (op : Op PK Sig V) (bc bc1 : Blockchain V),
      Q op = true → P bc → op.apply E bc = some bc1 → P bc1)
    (ops : List (Op PK Sig V)) :
    ∀ bc bc1 : Blockchain V, (∀ op ∈ ops, Q op = true) → P bc →
      run E ops bc = some bc1 → P bc1 := by
  induction ops with
  | nil =>
    intro bc bc1 _ hP h
    simp only [run, Option.some.injEq] at h
    exact h ▸ hP
  | cons op rest ih =>
    intro bc bc1 hQ hP h
    rw [run] at h
    split at h
    · simp at h
    · next bc2 hcall =>
      exact ih bc2 bc1 (fun o ho => hQ o (List.mem_cons_of_mem op ho))
        (hop op bc bc2 (hQ op (List.mem_cons_self op rest)) hP hcall) h

/-- A returning `Mining` keeps the bookkeeping of balance conservation. -/
theorem Mining_ConservationInv (E : Crypto PK Sig V) (bc bc1 : Blockchain V) (now : Int)
    (fuel : Nat) (r : Bool) (h : Mining E bc now fuel = some (bc1, r))
    (hinv : ConservationInv bc) : ConservationInv bc1 := by
  obtain ⟨hsum, hpool, hne, haddr⟩ := hinv
  obtain ⟨_, nonce, _, hbc1⟩ := Mining_some E bc bc1 now fuel r h
  have hpoolsum : (bc.transactionPool.map userDelta).sum = 0 :=
    List.sum_eq_zero (by
      intro x hx
      obtain ⟨t, ht, rfl⟩ := List.mem_map.1 hx
      exact hpool t ht)
  have hreward : userDelta (NewTransaction cMINING_SENDER bc.blockChainAddress
      (cMINING_REWARD : V)) = cMINING_REWARD := by
    simp [userDelta, NewTransaction, haddr]
  have hlen : bc.chain.length ≠ 0 := fun h0 => hne (List.length_eq_zero.1 h0)
  rw [hbc1]
  refine ⟨?_, by simp, by simp, haddr⟩
  simp only [allTransactions, List.flatMap_append, List.flatMap_cons, List.flatMap_nil,
    List.append_nil, List.map_append, List.sum_append, NewBlock, AssembleBlock,
    List.map_cons, List.map_nil, List.sum_cons, List.sum_nil, add_zero,
    List.length_append, List.length_singleton]
  rw [← allTransactions, hsum, hpoolsum, zero_add]
  rw [show (NewTransaction cMINING_SENDER bc.blockChainAddress (cMINING_REWARD : V)) =
    NewTransaction cMINING_SENDER bc.blockChainAddress (cMINING_REWARD : V) from rfl, hreward,
    ← succ_nsmul]
  congr 1
  omega

/-- A returning call of balance conservation keeps its bookkeeping. -/
theorem apply_ConservationInv (E : Crypto PK Sig V) (op : Op PK Sig V)
    (bc bc1 : Blockchain V) (hop : op.isTransfer = true) (hinv : ConservationInv bc)
    (h : op.apply E bc = some bc1) : ConservationInv bc1 := by
  cases op with
  | mining now fuel =>
    obtain ⟨r, hmine⟩ := map_fst_some (Mining E bc now fuel) bc1 h
    exact Mining_ConservationInv E bc bc1 now fuel r hmine hinv
  | addTransaction sender recipient value pk s =>
    obtain ⟨r, hadd⟩ := map_fst_some (AddTransaction E bc sender recipient value pk s) bc1 h
    simp only [Op.isTransfer, Bool.and_eq_true, bne_iff_ne, ne_eq] at hop
    rcases AddTransaction_some E bc bc1 sender recipient value pk s r hadd with
      ⟨_, hbc1⟩ | ⟨_, hbc1⟩
    · rw [hbc1]; exact hinv
    · obtain ⟨hsum, hpool, hne, haddr⟩ := hinv
      rw [hbc1]
      refine ⟨hsum, ?_, hne, haddr⟩
      intro t ht
      rcases List.mem_append.1 ht with hold | hnew
      · exact hpool t hold
      · rw [List.mem_singleton.1 hnew]
        simp [userDelta, NewTransaction, hop.1, hop.2]
  | clearTransactionPool => simp [Op.isTransfer] at hop
  | resolveConflicts httpGet => simp [Op.isTransfer] at hop
  | setNeighbors found => simp [Op.isTransfer] at hop

/-- Sender and recipient of a transaction of the chain are among the addresses
seen. -/
theorem mem_seenAddresses (bc : Blockchain V) (t : Transaction V)
    (ht : t ∈ allTransactions bc) :
    t.sender ∈ seenAddresses bc ∧ t.recipient ∈ seenAddresses bc := by
  obtain ⟨b, hb, htb⟩ := List.mem_flatMap.1 ht
  constructor
  · exact List.mem_dedup.2 (List.mem_flatMap.2 ⟨b, hb, List.mem_flatMap.2 ⟨t, htb, by simp⟩⟩)
  · exact List.mem_dedup.2 (List.mem_flatMap.2 ⟨b, hb, List.mem_flatMap.2 ⟨t, htb, by simp⟩⟩)

/-- C10, amended: with amounts added and subtracted exactly, in every state
reached from a freshly constructed node whose address is not the coin-base
sentinel by `Mining` and by `AddTransaction` calls whose sender and recipient
are not the sentinel, the balances of all addresses other than the sentinel
that occur as sender or recipient in the chain sum to
`MINING_REWARD * (len(chain) - 1)`; the balances of all addresses that occur,
the sentinel included, sum to 0. -/
theorem balance_conservation_users (E : Crypto PK Sig V) (addr : String) (port : Nat)
    (now : Int) (fuel : Nat) (ops : List (Op PK Sig V)) (bc0 bc : Blockchain V)
    (haddr : addr ≠ cMINING_SENDER) (hops : ∀ op ∈ ops, op.isTransfer = true)
    (hnew : NewBlockchain E addr port now fuel = some bc0)
    (hrun : run E ops bc0 = some bc) :
    sumOfBalances bc ((seenAddresses bc).filter (fun a => a != cMINING_SENDER)) =
      (bc.chain.length - 1) • (cMINING_REWARD : V) ∧
    sumOfBalances bc (seenAddresses bc) = 0 := by
  have hseen : (seenAddresses bc).Nodup := List.nodup_dedup _
  constructor
  · obtain ⟨nonce, _, hbc0⟩ := NewBlockchain_some E addr port now fuel bc0 hnew
    have hinv0 : ConservationInv bc0 := by
      rw [hbc0]
      exact ⟨by simp [allTransactions, NewBlock, AssembleBlock], by simp, by simp, haddr⟩
    have hinv : ConservationInv bc :=
      run_preserves_on E ConservationInv Op.isTransfer
        (fun op b b1 hq hb hcall => apply_ConservationInv E op b b1 hq hb hcall)
        ops bc0 bc hops hinv0 hrun
    rw [sumOfBalances_eq bc _ (hseen.filter _), ← hinv.1]
    congr 1
    refine List.map_congr_left ?_
    intro t ht
    obtain ⟨hs, hr⟩ := mem_seenAddresses bc t ht
    simp [userDelta, List.mem_filter, hs, hr]
  · rw [sumOfBalances_eq bc _ hseen]
    refine List.sum_eq_zero ?_
    intro x hx
    obtain ⟨t, ht, rfl⟩ := List.mem_map.1 hx
    obtain ⟨hs, hr⟩ := mem_seenAddresses bc t ht
    simp [hs, hr]

/-- C10, amended, at a concrete run: the fresh node of address `"A"` mines,
admits a transfer of 1 from `"A"` to `"B"` and mines again; the balances of
`"A"` and `"B"` sum to 2. -/
theorem balance_conservation_users_witness :
    (seenAddresses sampleTransferred).filter (fun a => a != cMINING_SENDER) = ["B", "A"] ∧
    sampleTransferred.chain.length = 3 ∧
    (sumOfBalances sampleTransferred
        ((seenAddresses sampleTransferred).filter (fun a => a != cMINING_SENDER)) =
      (sampleTransferred.chain.length - 1) • (cMINING_REWARD : Int) ∧
    sumOfBalances sampleTransferred (seenAddresses sampleTransferred) = 0) :=
  ⟨by decide, by decide,
   balance_conservation_users toyCrypto "A" 5000 7 1 transferCalls sampleFresh
     sampleTransferred (by decide) (by decide) (by decide) (by decide)⟩

end Conservation

end Ledger
